import Mathlib

/-!
Verification development for the agent runtime of the marvin-manager
repository: a shallow embedding, in Lean 4, of the canonical message
model, the four LLM provider adapters, the bounded tool-calling loop,
the sliding-window rate limiter, agent tool resolution, the runner tool
selection, the built-in calculator tool, tool parameter validation and
the memory text/hybrid search, together with theorems settling the
stated claims about them.

Modelling conventions:
- Python floats (scores, timestamps) are modelled as exact rationals.
- Python strings are Lean strings; case folding and substring tests are
  carried out on their character lists (ASCII-faithful).
- Python dicts whose iteration order matters are modelled as association
  lists in insertion order.
- External effects (the provider HTTP transport, the JSON decoder, the
  embedding encoder, tool bodies) enter as explicit function arguments.
-/

/-! ## String and list utilities -/

/-- Character-list version of the Python test "needle is at the start of
the haystack" (str.startswith). -/
def leadsList : List Char → List Char → Bool
  | [], _ => true
  | _ :: _, [] => false
  | a :: as, b :: bs => a = b && leadsList as bs

/-- Character-list version of the Python substring test `needle in
haystack`. An empty needle is contained in everything. -/
def hasSubList (needle : List Char) : List Char → Bool
  | [] => needle.isEmpty
  | b :: bs => leadsList needle (b :: bs) || hasSubList needle bs

/-- Lower-case a character list, modelling Python str.lower on ASCII. -/
def charsLower (cs : List Char) : List Char := cs.map Char.toLower

/-- Lower-case a string, modelling Python str.lower on ASCII text. -/
def pyLowerStr (s : String) : String := String.mk (charsLower s.toList)

/-- Helper for pySplitChars: the accumulator holds the current word,
reversed. -/
def pySplitCharsAux : List Char → List Char → List String
  | [], acc => if acc.isEmpty then [] else [String.mk acc.reverse]
  | c :: rest, acc =>
    if c.isWhitespace then
      if acc.isEmpty then pySplitCharsAux rest []
      else String.mk acc.reverse :: pySplitCharsAux rest []
    else pySplitCharsAux rest (c :: acc)

/-- Python str.split() with no separator: split on whitespace runs and
drop empty pieces. -/
def pySplitChars (cs : List Char) : List String := pySplitCharsAux cs []

/-- Insert x before the first element y of the list with gt x y; ties and
smaller elements keep x to their right. Building block of the stable
descending sort used to model Python list.sort(reverse=True). -/
def insertBefore (gt : α → α → Bool) (x : α) : List α → List α
  | [] => [x]
  | y :: ys => if gt x y then x :: y :: ys else y :: insertBefore gt x ys

/-- Stable sort placing elements with gt earlier; equal elements keep
their original relative order, as Python list.sort does. -/
def stableSortBy (gt : α → α → Bool) (l : List α) : List α :=
  l.foldl (fun acc x => insertBefore gt x acc) []

/-! ## Python runtime values

Model of the dynamically typed values that flow through tool arguments
and parameter validation. Python bool is a subtype of int; the
isinstance tests below reproduce that. -/

inductive PyValue where
  | int (n : ℤ)
  | float (q : ℚ)
  | bool (b : Bool)
  | str (s : String)
  | list (xs : List PyValue)
  | dict (kvs : List (String × PyValue))
  | none
  deriving Repr, BEq

/-- isinstance(value, str). -/
def pyIsStr : PyValue → Bool
  | .str _ => true
  | _ => false

/-- isinstance(value, int | float): in Python, True and False are ints,
so booleans pass this test. -/
def pyIsNumber : PyValue → Bool
  | .int _ => true
  | .float _ => true
  | .bool _ => true
  | _ => false

/-- isinstance(value, bool): strict, numbers are rejected. -/
def pyIsBool : PyValue → Bool
  | .bool _ => true
  | _ => false

/-- isinstance(value, list). -/
def pyIsList : PyValue → Bool
  | .list _ => true
  | _ => false

/-- isinstance(value, dict). -/
def pyIsDict : PyValue → Bool
  | .dict _ => true
  | _ => false

/-! ## Canonical message model (agents/llm/base.py) -/

inductive MessageRole where
  | system
  | user
  | assistant
  | tool
  deriving Repr, DecidableEq

inductive StopReason where
  | endTurn
  | maxTokens
  | toolUse
  | stopSequence
  | error
  deriving Repr, DecidableEq

/-- ToolCall dataclass: a tool invocation requested by the model. -/
structure ToolCall where
  id : String
  name : String
  arguments : PyValue
  deriving Repr

/-- LLMMessage dataclass: one conversation entry. -/
structure LLMMessage where
  role : MessageRole
  content : String
  toolCalls : Option (List ToolCall) := Option.none
  toolCallId : Option String := Option.none
  name : Option String := Option.none
  deriving Repr

/-- LLMMessage.assistant constructor. -/
def LLMMessage.assistant (content : String) (toolCalls : Option (List ToolCall)) :
    LLMMessage :=
  { role := .assistant, content := content, toolCalls := toolCalls }

/-- LLMMessage.tool_result constructor. -/
def LLMMessage.toolResult (toolCallId : String) (content : String)
    (name : Option String) : LLMMessage :=
  { role := .tool, content := content, toolCallId := some toolCallId, name := name }

/-- LLMMessage.user constructor. -/
def LLMMessage.userMsg (content : String) : LLMMessage :=
  { role := .user, content := content }

/-- LLMResponse dataclass (raw_response omitted: diagnostic only). -/
structure LLMResponse where
  content : String
  stopReason : StopReason
  toolCalls : List ToolCall := []
  inputTokens : ℕ := 0
  outputTokens : ℕ := 0
  model : String := ""
  deriving Repr

/-- LLMResponse.has_tool_calls property. -/
def LLMResponse.hasToolCalls (r : LLMResponse) : Bool := r.toolCalls.length > 0

/-! ## Anthropic adapter response parsing (anthropic_client.py) -/

/-- One content block of an Anthropic wire response; the source inspects
block.type, which the constructors encode. -/
inductive AnthropicBlock where
  | text (t : String)
  | toolUse (id : String) (name : String) (input : PyValue)
  | otherBlock (ty : String)
  deriving Repr

/-- The fields of an Anthropic Messages API response the parser reads. -/
structure AnthropicWire where
  content : List AnthropicBlock
  stopReason : String
  inputTokens : ℕ
  outputTokens : ℕ
  model : String
  deriving Repr

/-- block.input if isinstance(block.input, dict) else {} -/
def anthropicArgs (v : PyValue) : PyValue :=
  match v with
  | .dict kvs => .dict kvs
  | _ => .dict []

/-- The stop_reason_map dict lookup with default StopReason.END_TURN. -/
def anthropicStopReasonMap (s : String) : StopReason :=
  if s = "end_turn" then .endTurn
  else if s = "max_tokens" then .maxTokens
  else if s = "tool_use" then .toolUse
  else if s = "stop_sequence" then .stopSequence
  else .endTurn

/-- AnthropicClient._parse_response. -/
def anthropicParseResponse (r : AnthropicWire) : LLMResponse :=
  let contentParts := r.content.filterMap fun b =>
    match b with
    | .text t => some t
    | _ => Option.none
  let toolCalls := r.content.filterMap fun b =>
    match b with
    | .toolUse i n input => some (ToolCall.mk i n (anthropicArgs input))
    | _ => Option.none
  { content := String.intercalate "\n" contentParts
    stopReason := anthropicStopReasonMap r.stopReason
    toolCalls := toolCalls
    inputTokens := r.inputTokens
    outputTokens := r.outputTokens
    model := r.model }

/-! ## OpenAI-compatible adapter response parsing (openai_client.py) -/

structure OpenAIFunction where
  name : String
  arguments : String
  deriving Repr

structure OpenAIToolCall where
  id : String
  function : OpenAIFunction
  deriving Repr

structure OpenAIMessage where
  content : Option String
  toolCalls : Option (List OpenAIToolCall)
  deriving Repr

/-- The fields of the first choice of an OpenAI chat completion the
parser reads; usage is None when the provider omits it. -/
structure OpenAIWire where
  message : OpenAIMessage
  finishReason : Option String
  usage : Option (ℕ × ℕ)
  model : String
  deriving Repr

/-- json.loads(tc.function.arguments) with the JSONDecodeError fallback
to a raw-keyed dict. The decoder itself is external input. -/
def openaiDecodeArgs (jsonLoads : String → Option PyValue) (raw : String) : PyValue :=
  match jsonLoads raw with
  | some v => v
  | Option.none => .dict [("raw", .str raw)]

/-- The finish_reason_map dict lookup, applied to
(choice.finish_reason or "stop"), with default StopReason.END_TURN. -/
def openaiFinishReasonMap (s : String) : StopReason :=
  if s = "stop" then .endTurn
  else if s = "length" then .maxTokens
  else if s = "tool_calls" then .toolUse
  else if s = "function_call" then .toolUse
  else .endTurn

/-- OpenAIClient._parse_response. -/
def openaiParseResponse (jsonLoads : String → Option PyValue) (r : OpenAIWire) :
    LLMResponse :=
  let toolCalls :=
    (r.message.toolCalls.getD []).map fun tc =>
      ToolCall.mk tc.id tc.function.name (openaiDecodeArgs jsonLoads tc.function.arguments)
  { content := r.message.content.getD ""
    stopReason := openaiFinishReasonMap ((r.finishReason).getD "stop")
    toolCalls := toolCalls
    inputTokens := (r.usage.map Prod.fst).getD 0
    outputTokens := (r.usage.map Prod.snd).getD 0
    model := r.model }

/-! ## Gemini adapter response parsing (gemini_client.py) -/

structure GeminiFunctionCall where
  name : String
  args : Option (List (String × PyValue))
  deriving Repr

structure GeminiPart where
  text : Option String
  functionCall : Option GeminiFunctionCall
  deriving Repr

structure GeminiCandidate where
  parts : List GeminiPart
  finishReason : Option String
  deriving Repr

structure GeminiWire where
  candidates : List GeminiCandidate
  usage : Option (ℕ × ℕ)
  deriving Repr

/-- dict(fc.args) if fc.args else {} -/
def geminiArgs (args : Option (List (String × PyValue))) : PyValue :=
  match args with
  | some kvs => .dict kvs
  | Option.none => .dict []

/-- The parts of the first candidate, empty when there is none. -/
def geminiCandidateParts (cands : List GeminiCandidate) : List GeminiPart :=
  match cands with
  | [] => []
  | c :: _ => c.parts

/-- The tool-call extraction loop of the Gemini parser: one ToolCall
per truthy function_call part, with synthesized ids call_0, call_1,
... in part order. -/
def geminiToolCalls (parts : List GeminiPart) : List ToolCall :=
  (parts.filterMap fun p => p.functionCall).enum.map fun ic =>
    ToolCall.mk ("call_" ++ toString ic.1) ic.2.name (geminiArgs ic.2.args)

/-- The stop-reason determination of the Gemini parser when no tool
calls were decoded: a truthy finish_reason whose string form contains
MAX maps to MAX_TOKENS, anything else to END_TURN. -/
def geminiStopNoTools (cands : List GeminiCandidate) : StopReason :=
  match cands with
  | [] => StopReason.endTurn
  | c :: _ =>
    match c.finishReason with
    | some fr =>
      if fr ≠ "" ∧ hasSubList "MAX".toList fr.toList then StopReason.maxTokens
      else StopReason.endTurn
    | Option.none => StopReason.endTurn

/-- GeminiClient._parse_response: text parts are kept only when truthy
(non-empty); function calls get synthesized ids call_0, call_1, ... and
force stop_reason to TOOL_USE; otherwise a finish_reason containing
"MAX" maps to MAX_TOKENS and anything else to END_TURN. -/
def geminiParseResponse (model : String) (r : GeminiWire) : LLMResponse :=
  let parts := geminiCandidateParts r.candidates
  let contentParts := parts.filterMap fun p =>
    match p.text with
    | some t => if t = "" then Option.none else some t
    | Option.none => Option.none
  let toolCalls := geminiToolCalls parts
  let stopReason :=
    if toolCalls.isEmpty = false then StopReason.toolUse
    else geminiStopNoTools r.candidates
  { content := String.intercalate "\n" contentParts
    stopReason := stopReason
    toolCalls := toolCalls
    inputTokens := (r.usage.map Prod.fst).getD 0
    outputTokens := (r.usage.map Prod.snd).getD 0
    model := model }

/-! ## Ollama adapter response parsing (ollama_client.py) -/

structure OllamaFunction where
  name : Option String
  arguments : Option PyValue
  deriving Repr

structure OllamaToolCall where
  function : Option OllamaFunction
  deriving Repr

structure OllamaMessage where
  content : Option String
  toolCalls : Option (List OllamaToolCall)
  deriving Repr

structure OllamaWire where
  message : Option OllamaMessage
  doneReason : Option String
  promptEvalCount : Option ℕ
  evalCount : Option ℕ
  model : Option String
  deriving Repr

/-- Argument normalization in the Ollama parser: a string payload is
JSON-decoded with a raw-keyed fallback, anything else is kept as is. -/
def ollamaDecodeArgs (jsonLoads : String → Option PyValue) (v : PyValue) : PyValue :=
  match v with
  | .str s =>
    match jsonLoads s with
    | some w => w
    | Option.none => .dict [("raw", .str s)]
  | w => w

/-- The tool-call extraction loop of the Ollama parser: the tool_calls
key must be present on the message; each entry gets the synthesized id
call_i, the function name with default unknown, and its arguments
decoded from a JSON string when needed. -/
def ollamaToolCalls (jsonLoads : String → Option PyValue)
    (message : Option OllamaMessage) : List ToolCall :=
  match message with
  | Option.none => []
  | some m =>
    match m.toolCalls with
    | Option.none => []
    | some tcs =>
      tcs.enum.map fun itc =>
        let func := itc.2.function
        let name := ((func.map OllamaFunction.name).join).getD "unknown"
        let rawArgs := ((func.map OllamaFunction.arguments).join).getD (.dict [])
        ToolCall.mk ("call_" ++ toString itc.1) name (ollamaDecodeArgs jsonLoads rawArgs)

/-- OllamaClient._parse_response: tool calls get synthesized ids
call_0, call_1, ...; their presence forces stop_reason TOOL_USE, else
done_reason "length" maps to MAX_TOKENS, else END_TURN. -/
def ollamaParseResponse (jsonLoads : String → Option PyValue) (selfModel : String)
    (r : OllamaWire) : LLMResponse :=
  let toolCalls := ollamaToolCalls jsonLoads r.message
  let stopReason :=
    if toolCalls.isEmpty = false then StopReason.toolUse
    else if r.doneReason = some "length" then StopReason.maxTokens
    else StopReason.endTurn
  { content := ((r.message.map OllamaMessage.content).join).getD ""
    stopReason := stopReason
    toolCalls := toolCalls
    inputTokens := (r.promptEvalCount).getD 0
    outputTokens := (r.evalCount).getD 0
    model := (r.model).getD selfModel }

/-! ## The tool-calling loop (generate_with_tools, identical in all four
adapter classes)

The provider is an oracle mapping the index of the provider call and a
flag saying whether tools were included in the request to the canonical
response the generate call produced. The executor oracle yields the
string appended as the tool-result content (the output of the registry
result, or the error string the except branch formats). -/

/-- The while-loop body of generate_with_tools, by fuel
(max_iterations - iteration). Returns the final response, the final
conversation and the number of provider calls made. -/
def generateWithToolsGo (provider : ℕ → Bool → LLMResponse)
    (execOut : ToolCall → String) :
    ℕ → ℕ → List LLMMessage → LLMResponse × List LLMMessage × ℕ
  | 0, k, conv => (provider k false, conv, 1)
  | fuel + 1, k, conv =>
    let response := provider k true
    if response.hasToolCalls = false then (response, conv, 1)
    else
      let conv1 := conv ++ [LLMMessage.assistant response.content (some response.toolCalls)]
      let conv2 := conv1 ++ response.toolCalls.map fun tc =>
        LLMMessage.toolResult tc.id (execOut tc) (some tc.name)
      let rest := generateWithToolsGo provider execOut fuel (k + 1) conv2
      (rest.1, rest.2.1, rest.2.2 + 1)

/-- generate_with_tools: run the loop for max_iterations iterations
starting from the given conversation; on budget exhaustion one final
toolless generate call is made and returned. -/
def generateWithTools (provider : ℕ → Bool → LLMResponse)
    (execOut : ToolCall → String) (messages : List LLMMessage)
    (maxIterations : ℕ) : LLMResponse × List LLMMessage × ℕ :=
  generateWithToolsGo provider execOut maxIterations 0 messages

/-! ## Sliding-window rate limiter (commons/rate_limiter.py)

Timestamps are monotonic-clock readings modelled as rationals. Each
acquire takes two clock readings: now1 inside get_wait_time and now2
after the sleep; the caller of the model supplies both, constrained
only by what the clock and time.sleep guarantee. -/

/-- RateLimiter._cleanup_old_timestamps: pop from the head while the
head is strictly older than now - window. -/
def cleanupOldTimestamps (window : ℚ) (now : ℚ) (ts : List ℚ) : List ℚ :=
  ts.dropWhile fun t => t < now - window

/-- RateLimiter.get_wait_time, returning the wait together with the
deque it left behind (the cleanup mutates state). rpm <= 0 returns 0
without touching the deque. -/
def getWaitTime (rpm : ℤ) (window : ℚ) (now : ℚ) (ts : List ℚ) : ℚ × List ℚ :=
  if rpm ≤ 0 then (0, ts)
  else
    let ts1 := cleanupOldTimestamps window now ts
    if (ts1.length : ℤ) < rpm then (0, ts1)
    else
      let oldest := ts1.head?.getD 0
      (max 0 (oldest + window - now), ts1)

/-- RateLimiter.acquire (and acquire_async, same algorithm): compute the
wait at clock reading now1, sleep, re-read the clock at now2, purge and
append now2. Returns the wait and the new deque. -/
def acquire (rpm : ℤ) (window : ℚ) (now1 now2 : ℚ) (ts : List ℚ) : ℚ × List ℚ :=
  let wt := getWaitTime rpm window now1 ts
  let ts2 := cleanupOldTimestamps window now2 wt.2
  (wt.1, ts2 ++ [now2])

/-- A sequence of acquire calls on one limiter: each call is a pair of
clock readings (now1, now2). Returns the final deque and the per-call
trace (now1, now2, returned wait). -/
def runAcquires (rpm : ℤ) (window : ℚ) :
    List ℚ → List (ℚ × ℚ) → List ℚ × List (ℚ × ℚ × ℚ)
  | ts, [] => (ts, [])
  | ts, (n1, n2) :: rest =>
    let step := acquire rpm window n1 n2 ts
    let r := runAcquires rpm window step.2 rest
    (r.1, (n1, n2, step.1) :: r.2)

/-! ## Agent tool resolution (agents/models.py) -/

/-- The agent fields involved in tool resolution. tool_profile is a
CharField, so an arbitrary string: anything that is not minimal, coding
or messaging takes the FULL branch. -/
structure Agent where
  toolProfile : String
  toolsAllow : List String
  toolsDeny : List String
  deriving Repr

def codingPrefixes : List String := ["read", "write", "edit", "exec", "file", "code"]

def messagingPrefixes : List String :=
  ["send", "message", "notify", "email", "slack", "telegram"]

/-- Agent._get_profile_tools. -/
def getProfileTools (a : Agent) (availableTools : List String) : List String :=
  if a.toolProfile = "minimal" then []
  else if a.toolProfile = "coding" then
    availableTools.filter fun t => codingPrefixes.any fun p => leadsList p.toList t.toList
  else if a.toolProfile = "messaging" then
    availableTools.filter fun t => messagingPrefixes.any fun p => leadsList p.toList t.toList
  else availableTools

/-- Agent.get_allowed_tools: start from the profile tools, add
tools_allow (skipped when the list is empty, a no-op either way),
remove tools_deny, and keep only names that are actually available, in
the order of available_tools. Python uses a set for the middle steps;
an append-and-filter list keeps the same membership. -/
def getAllowedTools (a : Agent) (availableTools : List String) : List String :=
  let profileTools := getProfileTools a availableTools
  let allowed :=
    if a.toolsAllow.isEmpty then profileTools else profileTools ++ a.toolsAllow
  let afterDeny :=
    if a.toolsDeny.isEmpty then allowed
    else allowed.filter fun t => !(a.toolsDeny.contains t)
  availableTools.filter fun t => afterDeny.contains t

/-! ## Runner tool selection (agents/runner.py) and the chat view
(agents/views.py)

Only the tool-selection logic of AgentRunner.run is modelled: which
formatted tool definitions, if any, reach the provider call. The
rendered definitions keep their provider format and tool name; the
JSON schema bodies play no role in selection. -/

inductive WireFormat where
  | anthropicFmt
  | openaiFmt
  | geminiFmt
  deriving Repr, DecidableEq

/-- One rendered tool definition as handed to a provider. -/
structure FormattedTool where
  format : WireFormat
  name : String
  deriving Repr, DecidableEq

/-- t.get("name"): present in the Anthropic and Gemini renderings,
absent (None) in the OpenAI rendering where the name sits under
function. -/
def wireToolTopName (t : FormattedTool) : Option String :=
  match t.format with
  | .openaiFmt => Option.none
  | _ => some t.name

/-- t.get("function", {}).get("name"). -/
def wireToolFunctionName (t : FormattedTool) : Option String :=
  match t.format with
  | .openaiFmt => some t.name
  | _ => Option.none

/-- AgentRunner.get_tools_for_provider: lower-case the provider name and
dispatch to the registry renderer; unknown providers fall back to the
OpenAI format. Rendering preserves registry order and names. -/
def getToolsForProvider (provider : String) (registryNames : List String) :
    List FormattedTool :=
  let p := pyLowerStr provider
  if p = "anthropic" then registryNames.map (FormattedTool.mk .anthropicFmt)
  else if p = "openai" ∨ p = "vllm" then registryNames.map (FormattedTool.mk .openaiFmt)
  else if p = "gemini" then registryNames.map (FormattedTool.mk .geminiFmt)
  else if p = "ollama" then registryNames.map (FormattedTool.mk .openaiFmt)
  else registryNames.map (FormattedTool.mk .openaiFmt)

/-- Python membership test `opt in names` where opt may be None: None is
never an element of a list of strings. -/
def optMemList (o : Option String) (l : List String) : Bool :=
  match o with
  | some s => l.contains s
  | Option.none => false

/-- The tool-selection portion of AgentRunner.run: tools start as None;
when enable_tools is true and the registry is non-empty they become the
provider-formatted registry tools, filtered by tool_names when that
argument is truthy (a non-empty list); the subsequent branch on the
truthiness of tools decides whether the provider is called with tools
(some result) or without (none). -/
def runSelectTools (enableTools : Bool) (registryNames : List String)
    (provider : String) (toolNames : Option (List String)) :
    Option (List FormattedTool) :=
  let tools : Option (List FormattedTool) :=
    if enableTools ∧ registryNames.isEmpty = false then
      let ts := getToolsForProvider provider registryNames
      match toolNames with
      | some l =>
        if l.isEmpty then some ts
        else some (ts.filter fun t =>
          optMemList (wireToolTopName t) l || optMemList (wireToolFunctionName t) l)
      | Option.none => some ts
    else Option.none
  match tools with
  | some l => if l.isEmpty then Option.none else some l
  | Option.none => Option.none

/-- The tool-profile filtering step of the chat view
(AgentViewSet chat -> _chat_with_agent, views.py lines 160-173): when
tools are enabled and the caller supplied no tool_names, the view
resolves the agent effective tool set and passes it to run as
tool_names, with enable_tools anded with its truthiness. -/
def chatViewSelectTools (a : Agent) (enableTools : Bool)
    (registryNames : List String) (provider : String)
    (toolNames : Option (List String)) : Option (List FormattedTool) :=
  let noNamesGiven : Bool :=
    match toolNames with
    | Option.none => true
    | some l => l.isEmpty
  let filteredTools : Option (List String) :=
    if enableTools && noNamesGiven then some (getAllowedTools a registryNames)
    else toolNames
  let filteredTruthy : Bool :=
    match filteredTools with
    | Option.none => false
    | some l => !l.isEmpty
  runSelectTools (enableTools && filteredTruthy) registryNames provider filteredTools

/-! ## Provider failure semantics (generate, identical try/except shape
in anthropic_client.py, openai_client.py, gemini_client.py and
ollama_client.py)

The body of the try block (transport plus wire decode) either produces
a canonical response or raises; the except clauses re-raise ImportError
and turn every other exception e into
LLMResponse(content=f"Error: {e}", stop_reason=ERROR, model=self.model or ""). -/

inductive ProviderFailure where
  | importError (msg : String)
  | apiError (msg : String)
  deriving Repr, DecidableEq

/-- The except-clause handling wrapped around a generate call: Except.ok
is a returned response, Except.error a propagated exception message. -/
def generateErrorHandling (selfModel : String)
    (attempt : Except ProviderFailure LLMResponse) : Except String LLMResponse :=
  match attempt with
  | .ok r => .ok r
  | .error (.importError m) => .error m
  | .error (.apiError m) =>
    .ok { content := "Error: " ++ m, stopReason := .error, model := selfModel }

/-! ## Tool results and the calculator tool (agents/tools/base.py,
agents/tools/builtin.py) -/

inductive ToolStatus where
  | success
  | error
  | pending
  | approvalRequired
  deriving Repr, DecidableEq

/-- ToolResult dataclass; data payload entries are Python values. -/
structure ToolResult where
  status : ToolStatus
  output : String
  data : List (String × PyValue) := []
  error : Option String := Option.none
  deriving Repr

/-- ToolResult.success classmethod. -/
def ToolResult.successResult (output : String) (data : List (String × PyValue)) :
    ToolResult :=
  { status := .success, output := output, data := data }

/-- ToolResult.from_error classmethod. -/
def ToolResult.fromError (errorMsg : String) : ToolResult :=
  { status := .error, output := "", error := some errorMsg }

/-- CalculatorTool.ALLOWED_CHARS. -/
def calculatorAllowedChars : List Char := "0123456789+-*/.() ".toList

/-- The exception classes the calculator except clause catches, plus a
constructor for anything else (which would propagate). -/
inductive CalcError where
  | syntaxError (msg : String)
  | nameError (msg : String)
  | typeError (msg : String)
  | zeroDivisionError (msg : String)
  | uncaught (msg : String)
  deriving Repr, DecidableEq

/-- Rendering of the evaluation result by str(result). The Python eval
value is opaque here; the oracle returns its rendered string and the
value stored in the data payload. -/
structure CalcValue where
  rendered : String
  value : PyValue
  deriving Repr

/-- CalculatorTool.execute: reject any character outside ALLOWED_CHARS
before anything else; only then evaluate, catching SyntaxError,
NameError, TypeError and ZeroDivisionError. The evaluator (Python eval
with empty builtins) is an oracle argument; an Except.error result of
the whole function is an exception propagating out of execute. -/
def calculatorExecute (ev : String → Except CalcError CalcValue)
    (expression : String) : Except String ToolResult :=
  if (expression.toList.all fun c => calculatorAllowedChars.contains c) = false then
    .ok (ToolResult.fromError "Expression contains invalid characters")
  else
    match ev expression with
    | .ok v =>
      .ok (ToolResult.successResult v.rendered
        [("expression", .str expression), ("result", v.value)])
    | .error (.syntaxError m) => .ok (ToolResult.fromError ("Calculation error: " ++ m))
    | .error (.nameError m) => .ok (ToolResult.fromError ("Calculation error: " ++ m))
    | .error (.typeError m) => .ok (ToolResult.fromError ("Calculation error: " ++ m))
    | .error (.zeroDivisionError m) =>
      .ok (ToolResult.fromError ("Calculation error: " ++ m))
    | .error (.uncaught m) => .error m

/-! ## Tool parameter validation and registry execution
(agents/tools/base.py BaseTool.validate_params,
agents/tools/registry.py ToolRegistry.execute) -/

/-- ToolParameter dataclass. The enum field of the source is a list of
strings or None. -/
structure ToolParameter where
  name : String
  type : String
  description : String
  required : Bool := true
  default : Option PyValue := Option.none
  enum : Option (List String) := Option.none
  deriving Repr

/-- The properties dict of get_schema maps each declared name to its
(last, as later dict writes win) declaration. -/
def propsLookup (decls : List ToolParameter) (n : String) : Option ToolParameter :=
  (decls.filter fun d => d.name = n).getLast?

/-- The enum entry of a parameter json schema: present only when the
declared enum list is truthy (non-empty). -/
def schemaEnum (d : ToolParameter) : Option (List String) :=
  match d.enum with
  | some l => if l.isEmpty then Option.none else some l
  | Option.none => Option.none

/-- Python `value in enum_list` for a list of strings: only an equal
string is a member. -/
def enumContains (l : List String) (v : PyValue) : Bool :=
  match v with
  | .str s => l.contains s
  | _ => false

/-- The type- and enum-checking loop of validate_params over the
supplied parameters, in their dict insertion order. Undeclared names
are skipped (extra parameters are accepted). -/
def validateParamsLoop (decls : List ToolParameter) :
    List (String × PyValue) → Bool × Option String
  | [] => (true, Option.none)
  | (n, v) :: rest =>
    match propsLookup decls n with
    | Option.none => validateParamsLoop decls rest
    | some d =>
      if d.type = "string" ∧ pyIsStr v = false then
        (false, some ("Parameter " ++ n ++ " must be a string"))
      else if d.type = "number" ∧ pyIsNumber v = false then
        (false, some ("Parameter " ++ n ++ " must be a number"))
      else if d.type = "boolean" ∧ pyIsBool v = false then
        (false, some ("Parameter " ++ n ++ " must be a boolean"))
      else if d.type = "array" ∧ pyIsList v = false then
        (false, some ("Parameter " ++ n ++ " must be an array"))
      else if d.type = "object" ∧ pyIsDict v = false then
        (false, some ("Parameter " ++ n ++ " must be an object"))
      else
        match schemaEnum d with
        | some l =>
          if enumContains l v = false then
            (false, some ("Parameter " ++ n ++ " must be one of the enum values"))
          else validateParamsLoop decls rest
        | Option.none => validateParamsLoop decls rest

/-- BaseTool.validate_params: first the required-parameter check in
declaration order, then the per-supplied-parameter type and enum
checks. -/
def validateParams (decls : List ToolParameter) (params : List (String × PyValue)) :
    Bool × Option String :=
  match (decls.filter fun d => d.required).find?
      (fun d => !(params.any fun p => p.1 = d.name)) with
  | some d => (false, some ("Missing required parameter: " ++ d.name))
  | Option.none => validateParamsLoop decls params

/-- A registered tool: its declared parameters and its execute body.
The body is an oracle; an Except.error is an exception the body
raises. -/
structure ToolSpec where
  decls : List ToolParameter
  body : List (String × PyValue) → Except String ToolResult

/-- ToolRegistry.execute: lookup miss and validation failure return
error results without running the body; an exception from the body is
caught and rendered with str(e). -/
def registryExecute (tools : List (String × ToolSpec)) (name : String)
    (params : List (String × PyValue)) : ToolResult :=
  match (tools.find? fun p => p.1 = name).map Prod.snd with
  | Option.none => ToolResult.fromError ("Tool " ++ name ++ " not found")
  | some t =>
    let vr := validateParams t.decls params
    if vr.1 = false then ToolResult.fromError (vr.2.getD "Invalid parameters")
    else
      match t.body params with
      | .ok r => r
      | .error m => ToolResult.fromError m

/-! ## Memory search (memory/search.py)

Scores are exact rationals. Result metadata is omitted (it never feeds
back into scoring, combination or ordering). The row key used by the
hybrid combination is the f-string "<source>:<message_id or
summary_id>"; it is modelled by the pair of the source tag and the
optional id picked by the same Python or-expression, an injective
rendering of that string. -/

inductive ChunkSource where
  | message
  | summary
  deriving Repr, DecidableEq

/-- MemorySearchResult (metadata omitted). -/
structure MemorySearchResult where
  content : String
  score : ℚ
  source : ChunkSource
  messageId : Option ℕ := Option.none
  summaryId : Option ℕ := Option.none
  deriving Repr, DecidableEq

/-- The MemorySearchConfig fields the text and hybrid searches read.
hybrid_weights is a string-keyed dict. -/
structure MemorySearchConfig where
  enabled : Bool := true
  maxResults : ℕ := 6
  minScore : ℚ := 35 / 100
  hybridWeights : List (String × ℚ) := [("vector", 7 / 10), ("text", 3 / 10)]
  deriving Repr

/-- dict.get on the hybrid_weights mapping. -/
def weightsGet (w : List (String × ℚ)) (k : String) (dflt : ℚ) : ℚ :=
  match w.find? fun p => p.1 = k with
  | some p => p.2
  | Option.none => dflt

/-- Python `a or b` on the two optional ids: a None or zero left operand
falls through to the right one. -/
def pyOrId (a b : Option ℕ) : Option ℕ :=
  match a with
  | some n => if n = 0 then b else some n
  | Option.none => b

/-- The combination key of one result row. -/
def resultKey (r : MemorySearchResult) : ChunkSource × Option ℕ :=
  (r.source, pyOrId r.messageId r.summaryId)

/-- The strict comparison used by the score sort: list.sort(key=score,
reverse=True) puts a before b exactly when a.score > b.score, keeping
ties stable. -/
def scoreGt (a b : MemorySearchResult) : Bool := b.score < a.score

/-! ### Text search -/

/-- The Message model fields text search reads. created is the
created_datetime ordering key. -/
structure MemMessage where
  id : ℕ
  sessionId : ℕ
  sessionAgentId : ℕ
  role : String
  content : String
  created : ℕ
  deriving Repr, DecidableEq

/-- The ConversationSummary model fields text search reads. -/
structure MemSummary where
  id : ℕ
  sessionId : ℕ
  sessionAgentId : ℕ
  summaryText : String
  created : ℕ
  deriving Repr, DecidableEq

/-- The stored rows text search runs over. Lists stand for the database
tables in their stored order; queryset slices without an order_by read
them in that order. -/
structure MemDb where
  messages : List MemMessage
  summaries : List MemSummary
  deriving Repr

/-- The session / agent_id restriction applied to both querysets:
session wins over agent_id, both optional. -/
def restrictRows (sessionOf : α → ℕ) (agentOf : α → ℕ)
    (session : Option ℕ) (agentId : Option ℕ) (rows : List α) : List α :=
  match session with
  | some s => rows.filter fun r => sessionOf r = s
  | Option.none =>
    match agentId with
    | some a => rows.filter fun r => agentOf r = a
    | Option.none => rows

/-- Number of query tokens appearing in the lower-cased content
(the `sum(1 for word in words if word in content_lower)` count). -/
def tokenMatches (words : List String) (content : String) : ℕ :=
  words.countP fun w => hasSubList w.toList (charsLower content.toList)

/-- score = matches / len(words) if words else 0. -/
def tokenScore (words : List String) (content : String) : ℚ :=
  if words.isEmpty then 0
  else (tokenMatches words content : ℚ) / (words.length : ℚ)

/-- The result row built for one message. -/
def messageResult (words : List String) (m : MemMessage) : MemorySearchResult :=
  { content := m.content
    score := tokenScore words m.content
    source := .message
    messageId := some m.id }

/-- The result row built for one summary. -/
def summaryResult (words : List String) (s : MemSummary) : MemorySearchResult :=
  { content := s.summaryText
    score := tokenScore words s.summaryText
    source := .summary
    summaryId := some s.id }

/-- MemorySearchService.text_search, following the source step by step:
tokenize the lower-cased query; take the messages matching any token
(an empty token list gives an empty OR filter, which matches all rows),
most recent first, capped at twice max_results; score and keep rows at
or above min_score; then the summaries containing the whole query
(case-insensitively), capped at max_results, scored the same way;
finally sort everything by score descending (stable) and keep
max_results. -/
def textSearch (cfg : MemorySearchConfig) (db : MemDb) (query : String)
    (session : Option ℕ) (agentId : Option ℕ) : List MemorySearchResult :=
  let words := pySplitChars (charsLower query.toList)
  let messageQs := restrictRows MemMessage.sessionId MemMessage.sessionAgentId
    session agentId db.messages
  let anyToken :=
    if words.isEmpty then messageQs
    else messageQs.filter fun m =>
      words.any fun w => hasSubList w.toList (charsLower m.content.toList)
  let recent := (stableSortBy (fun a b => b.created < a.created) anyToken).take
    (cfg.maxResults * 2)
  let messageResults := recent.filterMap fun m =>
    let r := messageResult words m
    if cfg.minScore ≤ r.score then some r else Option.none
  let summaryQs := restrictRows MemSummary.sessionId MemSummary.sessionAgentId
    session agentId db.summaries
  let wholeQuery := (summaryQs.filter fun s =>
    hasSubList (charsLower query.toList) (charsLower s.summaryText.toList)).take
    cfg.maxResults
  let summaryResults := wholeQuery.filterMap fun s =>
    let r := summaryResult words s
    if cfg.minScore ≤ r.score then some r else Option.none
  (stableSortBy scoreGt (messageResults ++ summaryResults)).take cfg.maxResults

/-- Written from the claim, for comparison with the source: candidates
are the messages AND summaries whose content contains any query token
as a case-insensitive substring (no recency cap, no whole-query
filter), scored as matching tokens over total tokens, thresholded at
min_score, sorted by score descending, truncated to max_results. -/
def textSearchClaim (cfg : MemorySearchConfig) (db : MemDb) (query : String)
    (session : Option ℕ) (agentId : Option ℕ) : List MemorySearchResult :=
  let words := pySplitChars (charsLower query.toList)
  let containsAnyToken := fun (content : String) =>
    words.any fun w => hasSubList w.toList (charsLower content.toList)
  let messageResults :=
    ((restrictRows MemMessage.sessionId MemMessage.sessionAgentId session agentId
        db.messages).filter fun m => containsAnyToken m.content).map
      (messageResult words)
  let summaryResults :=
    ((restrictRows MemSummary.sessionId MemSummary.sessionAgentId session agentId
        db.summaries).filter fun s => containsAnyToken s.summaryText).map
      (summaryResult words)
  (stableSortBy scoreGt
    ((messageResults ++ summaryResults).filter fun r => cfg.minScore ≤ r.score)).take
    cfg.maxResults

/-- Written from the amended claim, for comparison with the source:
message candidates are the 2 * max_results most recent messages
containing any query token (all messages when the query has no
tokens); summary candidates are the first max_results summaries whose
content contains the WHOLE query case-insensitively; each candidate is
scored as matching tokens over total tokens (0 for a tokenless query),
kept when the score reaches min_score, and the union is sorted by
score descending (messages first on ties) and truncated to
max_results. -/
def textSearchAmendedSpec (cfg : MemorySearchConfig) (db : MemDb) (query : String)
    (session : Option ℕ) (agentId : Option ℕ) : List MemorySearchResult :=
  let words := pySplitChars (charsLower query.toList)
  let msgCandidates :=
    (stableSortBy (fun a b => b.created < a.created)
      ((restrictRows MemMessage.sessionId MemMessage.sessionAgentId session agentId
        db.messages).filter fun m =>
          words.isEmpty ||
            words.any fun w => hasSubList w.toList (charsLower m.content.toList))).take
      (cfg.maxResults * 2)
  let sumCandidates :=
    ((restrictRows MemSummary.sessionId MemSummary.sessionAgentId session agentId
      db.summaries).filter fun s =>
        hasSubList (charsLower query.toList) (charsLower s.summaryText.toList)).take
      cfg.maxResults
  let scored :=
    (msgCandidates.map (messageResult words) ++ sumCandidates.map (summaryResult words)).filter
      fun r => cfg.minScore ≤ r.score
  (stableSortBy scoreGt scored).take cfg.maxResults

/-! ### Hybrid search -/

/-- combined[key] = result: overwrite in place when the key exists
(keeping its dict position), append otherwise. -/
def dictSet (k : ChunkSource × Option ℕ) (r : MemorySearchResult) :
    List ((ChunkSource × Option ℕ) × MemorySearchResult) →
      List ((ChunkSource × Option ℕ) × MemorySearchResult)
  | [] => [(k, r)]
  | (k0, r0) :: rest =>
    if k0 = k then (k0, r) :: rest else (k0, r0) :: dictSet k r rest

/-- combined[key].score += delta. -/
def dictAddScore (k : ChunkSource × Option ℕ) (delta : ℚ) :
    List ((ChunkSource × Option ℕ) × MemorySearchResult) →
      List ((ChunkSource × Option ℕ) × MemorySearchResult)
  | [] => []
  | (k0, r0) :: rest =>
    if k0 = k then (k0, { r0 with score := r0.score + delta }) :: rest
    else (k0, r0) :: dictAddScore k delta rest

/-- key in combined. -/
def dictMem (k : ChunkSource × Option ℕ)
    (d : List ((ChunkSource × Option ℕ) × MemorySearchResult)) : Bool :=
  d.any fun p => p.1 = k

/-- The combined dict built by the two loops of hybrid_search: the
vector loop stores each row with its score scaled by vector_weight; the
text loop adds the text score scaled by text_weight onto an existing
key or appends a new scaled row. -/
def hybridCombine (vw tw : ℚ) (vectorResults textResults : List MemorySearchResult) :
    List ((ChunkSource × Option ℕ) × MemorySearchResult) :=
  let d1 := vectorResults.foldl
    (fun d r => dictSet (resultKey r) { r with score := r.score * vw } d) []
  textResults.foldl
    (fun d r =>
      if dictMem (resultKey r) d then dictAddScore (resultKey r) (r.score * tw) d
      else d ++ [(resultKey r, { r with score := r.score * tw })])
    d1

/-- MemorySearchService.hybrid_search over the two already-computed
result sets (the vector set comes from the external pgvector query, the
text set from text_search): empty when disabled, otherwise the combined
dict values sorted by score descending and truncated to max_results. -/
def hybridSearch (cfg : MemorySearchConfig)
    (vectorResults textResults : List MemorySearchResult) : List MemorySearchResult :=
  if cfg.enabled = false then []
  else
    let vw := weightsGet cfg.hybridWeights "vector" (7 / 10)
    let tw := weightsGet cfg.hybridWeights "text" (3 / 10)
    let combined := hybridCombine vw tw vectorResults textResults
    (stableSortBy scoreGt (combined.map Prod.snd)).take cfg.maxResults

/-- The per-key combined score the claim describes: the vector score
scaled by vector_weight plus the text score scaled by text_weight, each
contribution present only when the key appears in that result set. -/
def hybridClaimScore (vw tw : ℚ) (vectorResults textResults : List MemorySearchResult)
    (k : ChunkSource × Option ℕ) : Option ℚ :=
  match vectorResults.find? (fun r => resultKey r = k),
      textResults.find? (fun r => resultKey r = k) with
  | some rv, some rt => some (rv.score * vw + rt.score * tw)
  | some rv, Option.none => some (rv.score * vw)
  | Option.none, some rt => some (rt.score * tw)
  | Option.none, Option.none => Option.none

/-- Entry lookup in the combined dict (Python dict indexing as a total
function). -/
def dictFind (d : List ((ChunkSource × Option ℕ) × MemorySearchResult))
    (k : ChunkSource × Option ℕ) : Option MemorySearchResult :=
  (d.find? fun p => p.1 = k).map Prod.snd

/-- Score lookup in the combined dict. -/
def dictFindScore (d : List ((ChunkSource × Option ℕ) × MemorySearchResult))
    (k : ChunkSource × Option ℕ) : Option ℚ :=
  (d.find? fun p => p.1 = k).map fun p => p.2.score

/-- The clock discipline of a sequence of acquire calls starting no
earlier than t0: within each call the second reading is no earlier than
the first, and readings never go backwards across calls (the monotonic
clock contract). -/
def chronologicalFrom (t0 : ℚ) : List (ℚ × ℚ) → Prop
  | [] => True
  | (n1, n2) :: rest => t0 ≤ n1 ∧ n1 ≤ n2 ∧ chronologicalFrom n2 rest

/-! ## Helper lemmas -/

theorem leadsList_append (p s : List Char) : leadsList p (p ++ s) = true := by
  induction p with
  | nil => rfl
  | cons c cs ih => simp [leadsList, ih]

theorem mem_insertBefore (gt : α → α → Bool) (x y : α) (l : List α) :
    y ∈ insertBefore gt x l ↔ y = x ∨ y ∈ l := by
  induction l with
  | nil => simp [insertBefore]
  | cons z zs ih =>
    rw [insertBefore]
    by_cases h : gt x z = true
    · rw [if_pos h]
      simp only [List.mem_cons]
    · rw [if_neg h]
      simp only [List.mem_cons, ih]
      tauto

theorem insertBefore_pairwise (gt : α → α → Bool)
    (hasym : ∀ a b, gt a b = true → gt b a = false)
    (htrans : ∀ a b c, gt a b = true → gt c b = false → gt c a = false)
    (x : α) :
    ∀ l : List α, l.Pairwise (fun a b => gt b a = false) →
      (insertBefore gt x l).Pairwise fun a b => gt b a = false := by
  intro l
  induction l with
  | nil =>
    intro _
    simp [insertBefore]
  | cons y ys ih =>
    intro hl
    rcases List.pairwise_cons.mp hl with ⟨hy, hys⟩
    rw [insertBefore]
    by_cases h : gt x y = true
    · rw [if_pos h]
      refine List.pairwise_cons.mpr ⟨?_, List.pairwise_cons.mpr ⟨hy, hys⟩⟩
      intro z hz
      rcases List.mem_cons.mp hz with hz | hz
      · subst hz
        exact hasym _ _ h
      · exact htrans x y z h (hy z hz)
    · have hf : gt x y = false := by
        rwa [Bool.not_eq_true] at h
      rw [if_neg h]
      refine List.pairwise_cons.mpr ⟨?_, ih hys⟩
      intro z hz
      rcases (mem_insertBefore gt x z ys).mp hz with hz | hz
      · subst hz
        exact hf
      · exact hy z hz

theorem foldl_insertBefore_pairwise (gt : α → α → Bool)
    (hasym : ∀ a b, gt a b = true → gt b a = false)
    (htrans : ∀ a b c, gt a b = true → gt c b = false → gt c a = false)
    (l acc : List α) (hacc : acc.Pairwise fun a b => gt b a = false) :
    (l.foldl (fun d x => insertBefore gt x d) acc).Pairwise
      fun a b => gt b a = false := by
  induction l generalizing acc with
  | nil => simpa using hacc
  | cons x xs ih =>
    exact ih (insertBefore gt x acc) (insertBefore_pairwise gt hasym htrans x acc hacc)

theorem stableSortBy_pairwise (gt : α → α → Bool)
    (hasym : ∀ a b, gt a b = true → gt b a = false)
    (htrans : ∀ a b c, gt a b = true → gt c b = false → gt c a = false)
    (l : List α) :
    (stableSortBy gt l).Pairwise fun a b => gt b a = false :=
  foldl_insertBefore_pairwise gt hasym htrans l [] (by simp)

theorem insertBefore_perm (gt : α → α → Bool) (x : α) (l : List α) :
    (insertBefore gt x l).Perm (x :: l) := by
  induction l with
  | nil => simp [insertBefore]
  | cons y ys ih =>
    by_cases h : gt x y = true
    · simp [insertBefore, h]
    · rw [insertBefore, if_neg h]
      exact (ih.cons y).trans (List.Perm.swap x y ys)

theorem foldl_insertBefore_perm (gt : α → α → Bool) (l acc : List α) :
    (l.foldl (fun d x => insertBefore gt x d) acc).Perm (acc ++ l) := by
  induction l generalizing acc with
  | nil => simp
  | cons x xs ih =>
    refine (ih (insertBefore gt x acc)).trans ?_
    have h1 : (insertBefore gt x acc ++ xs).Perm ((x :: acc) ++ xs) :=
      (insertBefore_perm gt x acc).append_right xs
    refine h1.trans ?_
    simp only [List.cons_append]
    exact (List.perm_middle).symm

theorem stableSortBy_perm (gt : α → α → Bool) (l : List α) :
    (stableSortBy gt l).Perm l := by
  simpa using foldl_insertBefore_perm gt l []

theorem stableSortBy_length (gt : α → α → Bool) (l : List α) :
    (stableSortBy gt l).length = l.length :=
  (stableSortBy_perm gt l).length_eq

/-! ## Claim C4: agent tool resolution -/

theorem getAllowedTools_mem (a : Agent) (A : List String) (t : String) :
    t ∈ getAllowedTools a A ↔
      t ∈ A ∧ (t ∈ getProfileTools a A ∨ t ∈ a.toolsAllow) ∧ t ∉ a.toolsDeny := by
  by_cases hA : a.toolsAllow = [] <;> by_cases hD : a.toolsDeny = [] <;>
    simp [getAllowedTools, hA, hD, List.mem_filter] <;> tauto

/-- Claim C4: for every agent configuration and list A of available tool
names, membership in get_allowed_tools(A) is exactly membership in
((profile(A) union tools_allow) minus tools_deny) intersected with A;
consequently the result is a subset of A, denied names never appear,
and an allowed name present in A appears unless denied. -/
theorem getAllowedTools_spec (a : Agent) (A : List String) (t : String) :
    (t ∈ getAllowedTools a A ↔
      t ∈ A ∧ (t ∈ getProfileTools a A ∨ t ∈ a.toolsAllow) ∧ t ∉ a.toolsDeny)
    ∧ (t ∈ getAllowedTools a A → t ∈ A)
    ∧ (t ∈ a.toolsDeny → t ∉ getAllowedTools a A)
    ∧ (t ∈ a.toolsAllow → t ∈ A → t ∉ a.toolsDeny → t ∈ getAllowedTools a A) := by
  have h := getAllowedTools_mem a A t
  refine ⟨h, ?_, ?_, ?_⟩
  · intro ht
    exact (h.mp ht).1
  · intro hd ht
    exact ((h.mp ht).2.2) hd
  · intro hallow hmem hden
    exact h.mpr ⟨hmem, Or.inr hallow, hden⟩

/-- Witness for getAllowedTools_spec: a full-profile agent that denies y
over an availability list containing x, y, z. -/
theorem getAllowedTools_spec_witness :
    "y" ∈ (Agent.mk "full" ["x"] ["y"]).toolsDeny ∧
      "y" ∉ getAllowedTools (Agent.mk "full" ["x"] ["y"]) ["x", "y", "z"] := by
  refine ⟨by decide, ?_⟩
  exact (getAllowedTools_spec (Agent.mk "full" ["x"] ["y"]) ["x", "y", "z"] "y").2.2.1
    (by decide)

/-! ## Claim C6: provider failure semantics -/

/-- Claim C6: a transport or decode failure during a generate call comes
back as a returned response with stop_reason error and content starting
with the text Error: , never as a raised exception; the ImportError of a
missing SDK is the one exception that propagates. -/
theorem generateErrorHandling_spec (selfModel : String)
    (attempt : Except ProviderFailure LLMResponse) :
    (∀ m, attempt = .error (.apiError m) →
      ∃ r, generateErrorHandling selfModel attempt = .ok r ∧
        r.stopReason = .error ∧
        leadsList "Error: ".toList r.content.toList = true)
    ∧ (∀ m, generateErrorHandling selfModel attempt = .error m →
        attempt = .error (.importError m))
    ∧ (∀ r, attempt = .ok r → generateErrorHandling selfModel attempt = .ok r) := by
  refine ⟨?_, ?_, ?_⟩
  · intro m hm
    subst hm
    refine ⟨_, rfl, rfl, ?_⟩
    have : ("Error: " ++ m).toList = "Error: ".toList ++ m.toList := by
      simp [String.toList, String.data_append]
    rw [this]
    exact leadsList_append _ _
  · intro m hm
    cases attempt with
    | ok r => simp [generateErrorHandling] at hm
    | error e =>
      cases e with
      | importError m0 =>
        simp [generateErrorHandling] at hm
        simp [hm]
      | apiError m0 => simp [generateErrorHandling] at hm
  · intro r hr
    subst hr
    rfl

/-- Witness for generateErrorHandling_spec: a concrete API failure is
returned as an error-stop response with Error-headed content. -/
theorem generateErrorHandling_spec_witness :
    ∃ r, generateErrorHandling "claude" (.error (.apiError "boom")) = .ok r ∧
      r.stopReason = .error ∧ leadsList "Error: ".toList r.content.toList = true :=
  (generateErrorHandling_spec "claude" (.error (.apiError "boom"))).1 "boom" rfl

/-! ## Claim C7: calculator character gate -/

/-- Claim C7: an expression containing a character outside the allowed
class is rejected with an invalid-characters error result no matter
what the evaluator would do (the evaluator is never consulted); no
letter and no underscore is in the allowed class; and an evaluation
that raises ZeroDivisionError produces an error-status result. -/
theorem calculatorExecute_spec :
    (∀ (ev ev' : String → Except CalcError CalcValue) (e : String),
      (∃ c ∈ e.toList, c ∉ calculatorAllowedChars) →
        calculatorExecute ev e = calculatorExecute ev' e ∧
        calculatorExecute ev e =
          .ok (ToolResult.fromError "Expression contains invalid characters") ∧
        hasSubList "invalid characters".toList
          "Expression contains invalid characters".toList = true)
    ∧ (∀ c : Char, c.isAlpha = true ∨ c = '_' → c ∉ calculatorAllowedChars)
    ∧ (∀ (ev : String → Except CalcError CalcValue) (e : String) (m : String),
        ev e = .error (.zeroDivisionError m) →
        ∃ r, calculatorExecute ev e = .ok r ∧ r.status = .error) := by
  refine ⟨?_, ?_, ?_⟩
  · intro ev ev' e he
    have hall : (e.toList.all fun c => calculatorAllowedChars.contains c) = false := by
      rcases he with ⟨c, hc, hnc⟩
      apply Bool.eq_false_iff.mpr
      intro hall
      exact hnc (by simpa using List.all_eq_true.mp hall c hc)
    refine ⟨?_, ?_, by decide⟩
    · simp only [calculatorExecute, hall]
      simp
    · simp only [calculatorExecute, hall]
      simp
  · intro c hc hmem
    fin_cases hmem <;> revert hc <;> decide
  · intro ev e m hev
    by_cases hall : (e.toList.all fun c => calculatorAllowedChars.contains c) = false
    · refine ⟨ToolResult.fromError "Expression contains invalid characters", ?_, rfl⟩
      simp only [calculatorExecute, hall]
      simp
    · refine ⟨ToolResult.fromError ("Calculation error: " ++ m), ?_, rfl⟩
      simp only [calculatorExecute]
      rw [if_neg hall, hev]

/-- Witness for calculatorExecute_spec: the dunder-import payload of the
safety scenario contains an underscore, hence is outside the allowed
class and is rejected unevaluated; and a division by zero raised by the
evaluator yields an error result. -/
theorem calculatorExecute_spec_witness :
    (∃ c ∈ "__import__(0)".toList, c ∉ calculatorAllowedChars) ∧
    calculatorExecute (fun _ => .ok (CalcValue.mk "42" (.int 42))) "__import__(0)" =
      .ok (ToolResult.fromError "Expression contains invalid characters") ∧
    (∃ r, calculatorExecute (fun _ => .error (.zeroDivisionError "division by zero"))
        "1/0" = .ok r ∧ r.status = .error) := by
  have h1 : ∃ c ∈ "__import__(0)".toList, c ∉ calculatorAllowedChars :=
    ⟨'_', by decide, by decide⟩
  refine ⟨h1, ?_, ?_⟩
  · exact ((calculatorExecute_spec.1
      (fun _ => .ok (CalcValue.mk "42" (.int 42)))
      (fun _ => .ok (CalcValue.mk "42" (.int 42))) "__import__(0)") h1).2.1
  · exact calculatorExecute_spec.2.2
      (fun _ => .error (.zeroDivisionError "division by zero")) "1/0"
      "division by zero" rfl

/-! ## Claim C10: boolean versus number asymmetry in validate_params -/

theorem validateParams_singleNumber_bool (nm desc : String) (req b : Bool) :
    validateParams [ToolParameter.mk nm "number" desc req Option.none Option.none]
      [(nm, .bool b)] = (true, Option.none) := by
  simp [validateParams, validateParamsLoop, propsLookup, schemaEnum, pyIsNumber]

/-- Claim C10: parameter type validation is asymmetric for booleans: a
Python boolean passes a number-typed parameter check (bool being an int
subtype) and then reaches the tool body through the registry, while any
non-boolean int or float is rejected by a boolean-typed parameter
check. -/
theorem validateParams_bool_number_asymmetry (nm desc toolName : String)
    (req b : Bool) (n : ℤ) (q : ℚ)
    (body : List (String × PyValue) → Except String ToolResult) :
    validateParams [ToolParameter.mk nm "number" desc req Option.none Option.none]
      [(nm, .bool b)] = (true, Option.none)
    ∧ validateParams [ToolParameter.mk nm "boolean" desc req Option.none Option.none]
      [(nm, .int n)] =
        (false, some ("Parameter " ++ nm ++ " must be a boolean"))
    ∧ validateParams [ToolParameter.mk nm "boolean" desc req Option.none Option.none]
      [(nm, .float q)] =
        (false, some ("Parameter " ++ nm ++ " must be a boolean"))
    ∧ registryExecute
        [(toolName,
          ToolSpec.mk [ToolParameter.mk nm "number" desc req Option.none Option.none]
            body)]
        toolName [(nm, .bool b)] =
        (match body [(nm, .bool b)] with
          | .ok r => r
          | .error m => ToolResult.fromError m) := by
  refine ⟨validateParams_singleNumber_bool nm desc req b, ?_, ?_, ?_⟩
  · simp [validateParams, validateParamsLoop, propsLookup, schemaEnum, pyIsBool]
  · simp [validateParams, validateParamsLoop, propsLookup, schemaEnum, pyIsBool]
  · simp [registryExecute, validateParams_singleNumber_bool nm desc req b]

/-! ## Claim C2: tool-loop termination and the final toolless call -/

theorem generateWithToolsGo_calls_le (provider : ℕ → Bool → LLMResponse)
    (execOut : ToolCall → String) :
    ∀ (fuel k : ℕ) (conv : List LLMMessage),
      (generateWithToolsGo provider execOut fuel k conv).2.2 ≤ fuel + 1 := by
  intro fuel
  induction fuel with
  | zero =>
    intro k conv
    simp [generateWithToolsGo]
  | succ n ih =>
    intro k conv
    rw [generateWithToolsGo]
    by_cases h : (provider k true).hasToolCalls = false
    · simp [h]
    · have htrue : (provider k true).hasToolCalls = true := by
        rwa [Bool.not_eq_false] at h
      simp only [htrue, Bool.true_eq_false, if_false]
      exact Nat.succ_le_succ (ih (k + 1) _)

theorem generateWithToolsGo_exhaust (provider : ℕ → Bool → LLMResponse)
    (execOut : ToolCall → String) :
    ∀ (fuel k : ℕ) (conv : List LLMMessage),
      (∀ i, i < fuel → (provider (k + i) true).hasToolCalls = true) →
      (generateWithToolsGo provider execOut fuel k conv).1 = provider (k + fuel) false
      ∧ (generateWithToolsGo provider execOut fuel k conv).2.2 = fuel + 1 := by
  intro fuel
  induction fuel with
  | zero =>
    intro k conv _
    simp [generateWithToolsGo]
  | succ n ih =>
    intro k conv hadv
    have h0 : (provider k true).hasToolCalls = true := by
      simpa using hadv 0 (Nat.succ_pos n)
    rw [generateWithToolsGo]
    simp only [h0, Bool.true_eq_false, if_false]
    have hrest : ∀ i, i < n → (provider (k + 1 + i) true).hasToolCalls = true := by
      intro i hi
      have := hadv (i + 1) (by omega)
      simpa [Nat.add_assoc, Nat.add_comm 1 i] using this
    have := ih (k + 1)
      (conv ++ [LLMMessage.assistant (provider k true).content
        (some (provider k true).toolCalls)] ++
        (provider k true).toolCalls.map fun tc =>
          LLMMessage.toolResult tc.id (execOut tc) (some tc.name)) hrest
    constructor
    · rw [show k + (n + 1) = k + 1 + n by omega]
      simpa using this.1
    · simpa using this.2

/-- Claim C2: for every max_iterations and every provider behavior,
generate_with_tools makes at most max_iterations + 1 provider calls;
when every in-budget response carries tool calls, it makes exactly
max_iterations + 1 calls and the returned response is the one final
toolless call. -/
theorem generateWithTools_termination (provider : ℕ → Bool → LLMResponse)
    (execOut : ToolCall → String) (messages : List LLMMessage)
    (maxIterations : ℕ) :
    (generateWithTools provider execOut messages maxIterations).2.2 ≤
      maxIterations + 1
    ∧ ((∀ i, i < maxIterations → (provider i true).hasToolCalls = true) →
        (generateWithTools provider execOut messages maxIterations).1 =
          provider maxIterations false
        ∧ (generateWithTools provider execOut messages maxIterations).2.2 =
          maxIterations + 1) := by
  constructor
  · exact generateWithToolsGo_calls_le provider execOut maxIterations 0 messages
  · intro hadv
    have := generateWithToolsGo_exhaust provider execOut maxIterations 0 messages
      (by simpa using hadv)
    simpa using this

/-- Witness for generateWithTools_termination: an adversarial provider
that answers every in-budget call with a tool call; with budget 2 the
loop makes exactly 3 provider calls and returns the final toolless
response. -/
theorem generateWithTools_termination_witness :
    (generateWithTools
      (fun _ withTools =>
        if withTools then
          LLMResponse.mk "" .toolUse [ToolCall.mk "call_0" "calculator" (.dict [])] 0 0 ""
        else LLMResponse.mk "done" .endTurn [] 0 0 "")
      (fun _ => "42") [] 2).1 =
      LLMResponse.mk "done" .endTurn [] 0 0 ""
    ∧ (generateWithTools
      (fun _ withTools =>
        if withTools then
          LLMResponse.mk "" .toolUse [ToolCall.mk "call_0" "calculator" (.dict [])] 0 0 ""
        else LLMResponse.mk "done" .endTurn [] 0 0 "")
      (fun _ => "42") [] 2).2.2 = 2 + 1 := by
  have := (generateWithTools_termination
    (fun _ withTools =>
      if withTools then
        LLMResponse.mk "" .toolUse [ToolCall.mk "call_0" "calculator" (.dict [])] 0 0 ""
      else LLMResponse.mk "done" .endTurn [] 0 0 "")
    (fun _ => "42") [] 2).2 (by
      intro i hi
      simp [LLMResponse.hasToolCalls])
  simpa using this

theorem geminiStopNoTools_ne_toolUse (cands : List GeminiCandidate) :
    geminiStopNoTools cands ≠ .toolUse := by
  cases cands with
  | nil => simp [geminiStopNoTools]
  | cons c cs =>
    obtain ⟨p, fr⟩ := c
    cases fr with
    | none => simp [geminiStopNoTools]
    | some s =>
      simp only [geminiStopNoTools]
      split <;> simp

/-! ## Claim C1: stop_reason tool_use versus non-empty tool_calls -/

/-- Counterexample to claim C1 as stated: an Anthropic wire response
whose content holds a tool_use block while its wire stop_reason says
end_turn decodes to a canonical response with a non-empty tool_calls
list and stop_reason end_turn, breaking the equivalence; the Anthropic
parser takes stop_reason from the wire flag alone and never forces
tool_use. -/
theorem anthropicParse_stopReason_counterexample :
    (anthropicParseResponse
      (AnthropicWire.mk [.toolUse "toolu_1" "calculator" (.dict [])] "end_turn" 1 1
        "claude")).toolCalls ≠ []
    ∧ (anthropicParseResponse
      (AnthropicWire.mk [.toolUse "toolu_1" "calculator" (.dict [])] "end_turn" 1 1
        "claude")).stopReason ≠ .toolUse := by
  constructor
  · simp [anthropicParseResponse]
  · simp [anthropicParseResponse, anthropicStopReasonMap]

/-- Claim C1 (amended): the equivalence stop_reason = tool_use iff
tool_calls non-empty holds unconditionally for the Gemini and Ollama
parsers, which synthesize the stop reason from the decoded tool calls;
for the Anthropic and OpenAI parsers the canonical stop_reason is the
image of the wire finish flag alone (tool_use exactly when the wire
says tool_use, respectively tool_calls or function_call), so the
equivalence holds exactly when that flag is consistent with the decoded
blocks. -/
theorem parseResponse_toolUse_equivalence :
    (∀ (model : String) (w : GeminiWire),
      (geminiParseResponse model w).stopReason = .toolUse ↔
        (geminiParseResponse model w).toolCalls ≠ [])
    ∧ (∀ (jsonLoads : String → Option PyValue) (selfModel : String) (w : OllamaWire),
      (ollamaParseResponse jsonLoads selfModel w).stopReason = .toolUse ↔
        (ollamaParseResponse jsonLoads selfModel w).toolCalls ≠ [])
    ∧ (∀ w : AnthropicWire,
      (anthropicParseResponse w).stopReason = .toolUse ↔ w.stopReason = "tool_use")
    ∧ (∀ (jsonLoads : String → Option PyValue) (w : OpenAIWire),
      (openaiParseResponse jsonLoads w).stopReason = .toolUse ↔
        (w.finishReason.getD "stop" = "tool_calls" ∨
          w.finishReason.getD "stop" = "function_call")) := by
  refine ⟨?_, ?_, ?_, ?_⟩
  · intro model w
    simp only [geminiParseResponse]
    cases hp : geminiToolCalls (geminiCandidateParts w.candidates) with
    | nil =>
      simp only [List.isEmpty_nil, Bool.true_eq_false, if_false]
      constructor
      · intro hstop
        exact absurd hstop (geminiStopNoTools_ne_toolUse w.candidates)
      · intro hne
        simp at hne
    | cons t ts =>
      simp
  · intro jsonLoads selfModel w
    simp only [ollamaParseResponse]
    cases hp : ollamaToolCalls jsonLoads w.message with
    | nil =>
      simp only [List.isEmpty_nil, Bool.true_eq_false, if_false]
      constructor
      · intro hstop
        exfalso
        revert hstop
        by_cases hd : w.doneReason = some "length" <;> simp [hd]
      · intro hne
        simp at hne
    | cons t ts =>
      simp
  · intro w
    simp only [anthropicParseResponse, anthropicStopReasonMap]
    by_cases h1 : w.stopReason = "end_turn" <;>
      by_cases h2 : w.stopReason = "max_tokens" <;>
      by_cases h3 : w.stopReason = "tool_use" <;>
      by_cases h4 : w.stopReason = "stop_sequence" <;>
      simp_all
  · intro jsonLoads w
    simp only [openaiParseResponse, openaiFinishReasonMap]
    by_cases h1 : w.finishReason.getD "stop" = "stop" <;>
      by_cases h2 : w.finishReason.getD "stop" = "length" <;>
      by_cases h3 : w.finishReason.getD "stop" = "tool_calls" <;>
      by_cases h4 : w.finishReason.getD "stop" = "function_call" <;>
      simp_all

/-- Witness for parseResponse_toolUse_equivalence: a Gemini response
carrying one function call decodes, by the equivalence, with
stop_reason tool_use. -/
theorem parseResponse_toolUse_equivalence_witness :
    (geminiParseResponse "gemini-2.0-flash"
      (GeminiWire.mk
        [GeminiCandidate.mk
          [GeminiPart.mk Option.none
            (some (GeminiFunctionCall.mk "calculator" Option.none))] Option.none]
        Option.none)).stopReason = .toolUse := by
  exact (parseResponse_toolUse_equivalence.1 "gemini-2.0-flash"
    (GeminiWire.mk
      [GeminiCandidate.mk
        [GeminiPart.mk Option.none
          (some (GeminiFunctionCall.mk "calculator" Option.none))] Option.none]
      Option.none)).mpr
    (by simp [geminiParseResponse, geminiToolCalls, geminiCandidateParts])

/-! ## Claim C5: which tools AgentRunner.run passes to the provider -/

theorem getToolsForProvider_exists_fmt (provider : String)
    (registryNames : List String) :
    ∃ fmt, getToolsForProvider provider registryNames =
      registryNames.map (FormattedTool.mk fmt) := by
  rw [getToolsForProvider]
  split
  · exact ⟨.anthropicFmt, rfl⟩
  · split
    · exact ⟨.openaiFmt, rfl⟩
    · split
      · exact ⟨.geminiFmt, rfl⟩
      · split
        · exact ⟨.openaiFmt, rfl⟩
        · exact ⟨.openaiFmt, rfl⟩

theorem getToolsForProvider_names (provider : String) (registryNames : List String) :
    (getToolsForProvider provider registryNames).map FormattedTool.name =
      registryNames := by
  obtain ⟨fmt, hf⟩ := getToolsForProvider_exists_fmt provider registryNames
  rw [hf, List.map_map]
  have hcomp : FormattedTool.name ∘ FormattedTool.mk fmt = id := rfl
  rw [hcomp, List.map_id]

theorem filter_contains_filter {α : Type} [DecidableEq α] (p : α → Bool)
    (l : List α) :
    (l.filter fun n => (l.filter p).contains n) = l.filter p := by
  apply List.filter_congr
  intro n hn
  by_cases hp : p n = true
  · simp [List.elem_eq_mem, List.mem_filter, hn, hp]
  · simp [List.elem_eq_mem, List.mem_filter, hp]

theorem wireTool_filter_eq_contains (l : List String) (t : FormattedTool) :
    (optMemList (wireToolTopName t) l || optMemList (wireToolFunctionName t) l) =
      l.contains t.name := by
  obtain ⟨fmt, nm⟩ := t
  cases fmt <;> simp [wireToolTopName, wireToolFunctionName, optMemList]

/-- Counterexample to claim C5 as stated: an agent with the minimal
profile and no allow list has an empty effective tool set over a
registry holding the calculator, yet AgentRunner.run called with
enable_tools true and no tool_names passes the provider the full
formatted registry, not nothing: run never consults
get_allowed_tools. -/
theorem runSelectTools_counterexample :
    getAllowedTools (Agent.mk "minimal" [] []) ["calculator"] = []
    ∧ runSelectTools true ["calculator"] "anthropic" Option.none =
        some [FormattedTool.mk .anthropicFmt "calculator"] := by
  constructor
  · simp [getAllowedTools, getProfileTools]
  · simp [runSelectTools, getToolsForProvider, pyLowerStr, charsLower]

/-- Claim C5 (amended): AgentRunner.run performs no tool-ACL resolution
itself. With enable_tools false it passes no tools; with enable_tools
true and no tool_names it passes every registry tool in provider
format; a supplied empty tool_names list is falsy and filters nothing;
a non-empty tool_names list keeps exactly the registry tools whose name
it contains, and no tools are passed when that filter result (or the
registry) is empty. The section 3 effective-set resolution lives one
layer up, in the chat view, which passes get_allowed_tools of the
registry names as tool_names: through that path the provider receives
exactly the effective tool set, and none when it is empty. -/
theorem runSelectTools_spec (a : Agent) (registryNames : List String)
    (provider : String) (toolNames : Option (List String)) (l : List String) :
    runSelectTools false registryNames provider toolNames = Option.none
    ∧ runSelectTools true registryNames provider Option.none =
        (if registryNames.isEmpty then Option.none
          else some (getToolsForProvider provider registryNames))
    ∧ runSelectTools true registryNames provider (some []) =
        runSelectTools true registryNames provider Option.none
    ∧ (l ≠ [] →
        runSelectTools true registryNames provider (some l) =
          (let ts := (getToolsForProvider provider registryNames).filter
            fun t => l.contains t.name
          if registryNames.isEmpty ∨ ts.isEmpty then Option.none else some ts))
    ∧ ((chatViewSelectTools a true registryNames provider Option.none).getD []).map
        FormattedTool.name = getAllowedTools a registryNames
    ∧ (chatViewSelectTools a true registryNames provider Option.none = Option.none ↔
        getAllowedTools a registryNames = []) := by
  refine ⟨?_, ?_, ?_, ?_, ?_, ?_⟩
  · simp [runSelectTools]
  · rw [runSelectTools]
    cases hrn : registryNames.isEmpty
    · simp only [hrn, Bool.false_eq_true, not_false_iff, true_and, if_true]
      have hne : (getToolsForProvider provider registryNames).isEmpty = false := by
        obtain ⟨fmt, hf⟩ := getToolsForProvider_exists_fmt provider registryNames
        rw [hf]
        simpa using hrn
      simp [hne]
    · simp [hrn]
  · rw [runSelectTools, runSelectTools]
    simp
  · intro hl
    rw [runSelectTools]
    cases hrn : registryNames.isEmpty
    · have hfcond : ∀ t, (optMemList (wireToolTopName t) l ||
          optMemList (wireToolFunctionName t) l) = l.contains t.name :=
        wireTool_filter_eq_contains l
      have hf : ((getToolsForProvider provider registryNames).filter fun t =>
          optMemList (wireToolTopName t) l || optMemList (wireToolFunctionName t) l) =
          (getToolsForProvider provider registryNames).filter
            fun t => l.contains t.name :=
        List.filter_congr fun t _ => hfcond t
      simp only [hrn, Bool.false_eq_true, not_false_iff, true_and, if_true,
        List.isEmpty_eq_true (l := l)]
      rw [if_neg (by simpa using hl), hf]
      simp [hrn]
    · simp [hrn, List.isEmpty_eq_true]
  · by_cases he : getAllowedTools a registryNames = []
    · simp [chatViewSelectTools, he, runSelectTools]
    · have heb : (getAllowedTools a registryNames).isEmpty = false := by
        simpa [List.isEmpty_eq_true] using he
      simp only [chatViewSelectTools, heb]
      obtain ⟨q, hq⟩ : ∃ q, getAllowedTools a registryNames = registryNames.filter q :=
        ⟨_, rfl⟩
      have hrn : registryNames.isEmpty = false := by
        cases hrn0 : registryNames.isEmpty
        · rfl
        · rw [List.isEmpty_eq_true] at hrn0
          subst hrn0
          exact absurd (by simp [getAllowedTools]) he
      rw [runSelectTools]
      simp only [hrn, Bool.false_eq_true, not_false_iff, true_and, if_true, Bool.and_self,
        Bool.not_false, if_true, heb]
      rw [if_neg (by simpa using he)]
      have hfcond := wireTool_filter_eq_contains (getAllowedTools a registryNames)
      have hf : ((getToolsForProvider provider registryNames).filter fun t =>
          optMemList (wireToolTopName t) (getAllowedTools a registryNames) ||
            optMemList (wireToolFunctionName t) (getAllowedTools a registryNames)) =
          (getToolsForProvider provider registryNames).filter
            fun t => (getAllowedTools a registryNames).contains t.name :=
        List.filter_congr fun t _ => hfcond t
      rw [hf]
      obtain ⟨fmt, hfp⟩ := getToolsForProvider_exists_fmt provider registryNames
      rw [hfp, List.filter_map]
      have hcomp : ((fun t => (getAllowedTools a registryNames).contains
          (FormattedTool.name t)) ∘ FormattedTool.mk fmt) =
          fun n => (getAllowedTools a registryNames).contains n := rfl
      rw [hcomp]
      conv in registryNames.filter fun n =>
          (getAllowedTools a registryNames).contains n => rw [hq]
      rw [filter_contains_filter, ← hq]
      have hmapne : ((getAllowedTools a registryNames).map
          (FormattedTool.mk fmt)).isEmpty = false := by
        simpa [List.isEmpty_eq_true] using he
      simp [hmapne]
      have hid : FormattedTool.name ∘ FormattedTool.mk fmt = id := rfl
      rw [hid, List.map_id]
  · by_cases he : getAllowedTools a registryNames = []
    · simp [chatViewSelectTools, he, runSelectTools]
    · have heb : (getAllowedTools a registryNames).isEmpty = false := by
        simpa [List.isEmpty_eq_true] using he
      simp only [chatViewSelectTools, heb]
      obtain ⟨q, hq⟩ : ∃ q, getAllowedTools a registryNames = registryNames.filter q :=
        ⟨_, rfl⟩
      have hrn : registryNames.isEmpty = false := by
        cases hrn0 : registryNames.isEmpty
        · rfl
        · rw [List.isEmpty_eq_true] at hrn0
          subst hrn0
          exact absurd (by simp [getAllowedTools]) he
      rw [runSelectTools]
      simp only [hrn, Bool.false_eq_true, not_false_iff, true_and, if_true, Bool.and_self,
        Bool.not_false, if_true, heb]
      rw [if_neg (by simpa using he)]
      have hfcond := wireTool_filter_eq_contains (getAllowedTools a registryNames)
      have hf : ((getToolsForProvider provider registryNames).filter fun t =>
          optMemList (wireToolTopName t) (getAllowedTools a registryNames) ||
            optMemList (wireToolFunctionName t) (getAllowedTools a registryNames)) =
          (getToolsForProvider provider registryNames).filter
            fun t => (getAllowedTools a registryNames).contains t.name :=
        List.filter_congr fun t _ => hfcond t
      rw [hf]
      obtain ⟨fmt, hfp⟩ := getToolsForProvider_exists_fmt provider registryNames
      rw [hfp, List.filter_map]
      have hcomp : ((fun t => (getAllowedTools a registryNames).contains
          (FormattedTool.name t)) ∘ FormattedTool.mk fmt) =
          fun n => (getAllowedTools a registryNames).contains n := rfl
      rw [hcomp]
      conv in registryNames.filter fun n =>
          (getAllowedTools a registryNames).contains n => rw [hq]
      rw [filter_contains_filter, ← hq]
      have hmapne : ((getAllowedTools a registryNames).map
          (FormattedTool.mk fmt)).isEmpty = false := by
        simpa [List.isEmpty_eq_true] using he
      simp [hmapne, he]

/-! ## Claim C3: rate limiter invariants -/

theorem mem_cleanup_ge (window now : ℚ) :
    ∀ l : List ℚ, l.Sorted (· ≤ ·) →
      ∀ x ∈ cleanupOldTimestamps window now l, now - window ≤ x := by
  intro l
  induction l with
  | nil =>
    intro _ x hx
    simp [cleanupOldTimestamps] at hx
  | cons a t ih =>
    intro hs x hx
    rw [cleanupOldTimestamps, List.dropWhile_cons] at hx
    by_cases h : a < now - window
    · rw [if_pos (by simpa using h)] at hx
      exact ih hs.of_cons x hx
    · rw [if_neg (by simpa using h)] at hx
      rcases List.mem_cons.mp hx with rfl | hx
      · linarith [not_lt.mp h]
      · have := (List.sorted_cons.mp hs).1 x hx
        linarith [not_lt.mp h]

theorem cleanup_sublist (window now : ℚ) (l : List ℚ) :
    List.Sublist (cleanupOldTimestamps window now l) l :=
  List.dropWhile_sublist _

theorem cleanup_sorted (window now : ℚ) (l : List ℚ) (hs : l.Sorted (· ≤ ·)) :
    (cleanupOldTimestamps window now l).Sorted (· ≤ ·) :=
  hs.sublist (cleanup_sublist window now l)

theorem cleanup_length_le (window now : ℚ) (l : List ℚ) :
    (cleanupOldTimestamps window now l).length ≤ l.length :=
  (cleanup_sublist window now l).length_le

theorem mem_cleanup_subset (window now : ℚ) (l : List ℚ) :
    ∀ x ∈ cleanupOldTimestamps window now l, x ∈ l :=
  fun _ hx => (cleanup_sublist window now l).subset hx

theorem getWaitTime_cases (rpm : ℤ) (hrpm : 0 < rpm) (window now : ℚ)
    (ts : List ℚ) :
    getWaitTime rpm window now ts =
      (if ((cleanupOldTimestamps window now ts).length : ℤ) < rpm then
        ((0 : ℚ), cleanupOldTimestamps window now ts)
      else
        (max 0 ((cleanupOldTimestamps window now ts).head?.getD 0 + window - now),
          cleanupOldTimestamps window now ts)) := by
  rw [getWaitTime, if_neg (not_le.mpr hrpm)]

theorem acquire_wait_nonneg (rpm : ℤ) (window n1 n2 : ℚ) (ts : List ℚ) :
    0 ≤ (acquire rpm window n1 n2 ts).1 := by
  have h : (acquire rpm window n1 n2 ts).1 = (getWaitTime rpm window n1 ts).1 := rfl
  rw [h, getWaitTime]
  split
  · simp
  · dsimp only
    split
    · simp
    · simp [le_max_left]

theorem acquire_step (rpm : ℤ) (hrpm : 0 < rpm) (n1 n2 : ℚ) (ts : List ℚ)
    (hsorted : ts.Sorted (· ≤ ·)) (hle : ∀ x ∈ ts, x ≤ n1) (hn12 : n1 ≤ n2) :
    ((acquire rpm 60 n1 n2 ts).2).Sorted (· ≤ ·)
    ∧ (∀ x ∈ (acquire rpm 60 n1 n2 ts).2, x ≤ n2)
    ∧ (∀ x ∈ (acquire rpm 60 n1 n2 ts).2, n2 - 60 ≤ x)
    ∧ ((ts.length : ℤ) ≤ rpm →
        n1 + (acquire rpm 60 n1 n2 ts).1 < n2 →
        ((acquire rpm 60 n1 n2 ts).2.length : ℤ) ≤ rpm) := by
  have hsnd : (getWaitTime rpm 60 n1 ts).2 = cleanupOldTimestamps 60 n1 ts := by
    rw [getWaitTime_cases rpm hrpm]
    split
    · rfl
    · rfl
  have hres : (acquire rpm 60 n1 n2 ts).2 =
      cleanupOldTimestamps 60 n2 (cleanupOldTimestamps 60 n1 ts) ++ [n2] := by
    show cleanupOldTimestamps 60 n2 (getWaitTime rpm 60 n1 ts).2 ++ [n2] = _
    rw [hsnd]
  have hwait : (acquire rpm 60 n1 n2 ts).1 = (getWaitTime rpm 60 n1 ts).1 := rfl
  have hAsorted : (cleanupOldTimestamps 60 n1 ts).Sorted (· ≤ ·) :=
    cleanup_sorted 60 n1 ts hsorted
  have hAle : ∀ x ∈ cleanupOldTimestamps 60 n1 ts, x ≤ n1 :=
    fun x hx => hle x (mem_cleanup_subset 60 n1 ts x hx)
  have hAge : ∀ x ∈ cleanupOldTimestamps 60 n1 ts, n1 - 60 ≤ x :=
    mem_cleanup_ge 60 n1 ts hsorted
  have hBsorted : (cleanupOldTimestamps 60 n2 (cleanupOldTimestamps 60 n1 ts)).Sorted
      (· ≤ ·) := cleanup_sorted 60 n2 _ hAsorted
  have hBle : ∀ x ∈ cleanupOldTimestamps 60 n2 (cleanupOldTimestamps 60 n1 ts),
      x ≤ n1 := fun x hx => hAle x (mem_cleanup_subset 60 n2 _ x hx)
  have hBge : ∀ x ∈ cleanupOldTimestamps 60 n2 (cleanupOldTimestamps 60 n1 ts),
      n2 - 60 ≤ x := mem_cleanup_ge 60 n2 _ hAsorted
  rw [hres, hwait]
  refine ⟨?_, ?_, ?_, ?_⟩
  · refine List.pairwise_append.mpr ⟨hBsorted, List.pairwise_singleton _ _, ?_⟩
    intro x hx y hy
    rcases List.mem_singleton.mp hy with rfl
    exact le_trans (hBle x hx) hn12
  · intro x hx
    rcases List.mem_append.mp hx with hx | hx
    · exact le_trans (hBle x hx) hn12
    · rcases List.mem_singleton.mp hx with rfl
      exact le_refl _
  · intro x hx
    rcases List.mem_append.mp hx with hx | hx
    · exact hBge x hx
    · rcases List.mem_singleton.mp hx with rfl
      linarith
  · intro hlen hpass
    have hAlen : ((cleanupOldTimestamps 60 n1 ts).length : ℤ) ≤ rpm := by
      have := cleanup_length_le 60 n1 ts
      omega
    by_cases hfew : ((cleanupOldTimestamps 60 n1 ts).length : ℤ) < rpm
    · have hBlen := cleanup_length_le 60 n2 (cleanupOldTimestamps 60 n1 ts)
      simp only [List.length_append, List.length_singleton]
      push_cast
      omega
    · have hAne : cleanupOldTimestamps 60 n1 ts ≠ [] := by
        intro hnil
        rw [hnil] at hfew
        simp at hfew
        omega
      obtain ⟨h, t, hht⟩ := List.exists_cons_of_ne_nil hAne
      have hwfull : (getWaitTime rpm 60 n1 ts).1 =
          max 0 ((cleanupOldTimestamps 60 n1 ts).head?.getD 0 + 60 - n1) := by
        rw [getWaitTime_cases rpm hrpm, if_neg hfew]
      have hw : h + 60 - n1 ≤ (getWaitTime rpm 60 n1 ts).1 := by
        rw [hwfull, hht]
        simp only [List.head?_cons, Option.getD_some]
        exact le_max_right _ _
      have hh2 : h < n2 - 60 := by
        have hle2 : n1 + (h + 60 - n1) ≤ n1 + (getWaitTime rpm 60 n1 ts).1 := by
          linarith
        have := lt_of_le_of_lt hle2 hpass
        linarith
      have hdrop : (cleanupOldTimestamps 60 n2 (cleanupOldTimestamps 60 n1 ts)).length ≤
          t.length := by
        rw [hht, cleanupOldTimestamps, List.dropWhile_cons,
          if_pos (by simpa using hh2)]
        exact cleanup_length_le 60 n2 t
      have hlent : (t.length : ℤ) ≤ rpm - 1 := by
        rw [hht] at hAlen
        simp only [List.length_cons] at hAlen
        push_cast at hAlen
        omega
      simp only [List.length_append, List.length_singleton]
      push_cast
      omega

theorem runAcquires_invariant (rpm : ℤ) (hrpm : 0 < rpm) :
    ∀ (calls : List (ℚ × ℚ)) (ts : List ℚ) (t0 : ℚ),
      ts.Sorted (· ≤ ·) → (∀ x ∈ ts, x ≤ t0) → chronologicalFrom t0 calls →
      ((runAcquires rpm 60 ts calls).1.Sorted (· ≤ ·)
        ∧ ∀ c, calls.getLast? = some c →
            ∀ x ∈ (runAcquires rpm 60 ts calls).1, c.2 - 60 ≤ x ∧ x ≤ c.2)
      ∧ ((ts.length : ℤ) ≤ rpm →
          (∀ tr ∈ (runAcquires rpm 60 ts calls).2, tr.1 + tr.2.2 < tr.2.1) →
          ((runAcquires rpm 60 ts calls).1.length : ℤ) ≤ rpm) := by
  intro calls
  induction calls with
  | nil =>
    intro ts t0 hsorted hle _
    refine ⟨⟨hsorted, ?_⟩, ?_⟩
    · intro c hc
      simp at hc
    · intro hlen _
      simpa [runAcquires] using hlen
  | cons c0 rest ih =>
    obtain ⟨n1, n2⟩ := c0
    intro ts t0 hsorted hle hchron
    obtain ⟨ht0n1, hn12, hchronRest⟩ := hchron
    have hlen1 : ∀ x ∈ ts, x ≤ n1 := fun x hx => le_trans (hle x hx) ht0n1
    have hstep := acquire_step rpm hrpm n1 n2 ts hsorted hlen1 hn12
    have hihall := ih (acquire rpm 60 n1 n2 ts).2 n2 hstep.1 hstep.2.1 hchronRest
    constructor
    · constructor
      · simpa [runAcquires] using hihall.1.1
      · intro c hc x hx
        cases hrest : rest with
        | nil =>
          subst hrest
          simp [runAcquires] at hc hx
          subst hc
          exact ⟨hstep.2.2.1 x hx, hstep.2.1 x hx⟩
        | cons r rs =>
          have hlast : ((n1, n2) :: rest).getLast? = rest.getLast? := by
            rw [hrest]
            simp [List.getLast?_cons_cons]
          rw [hlast] at hc
          have hx' : x ∈ (runAcquires rpm 60 (acquire rpm 60 n1 n2 ts).2 rest).1 := by
            simpa [runAcquires] using hx
          exact hihall.1.2 c hc x hx'
    · intro hlen htrace
      have hpass0 : n1 + (acquire rpm 60 n1 n2 ts).1 < n2 := by
        have := htrace (n1, n2, (acquire rpm 60 n1 n2 ts).1) (by simp [runAcquires])
        simpa using this
      have hlen' : ((acquire rpm 60 n1 n2 ts).2.length : ℤ) ≤ rpm :=
        hstep.2.2.2 hlen hpass0
      have htrace' : ∀ tr ∈ (runAcquires rpm 60 (acquire rpm 60 n1 n2 ts).2 rest).2,
          tr.1 + tr.2.2 < tr.2.1 := by
        intro tr htr
        exact htrace tr (by simp [runAcquires, htr])
      simpa [runAcquires] using hihall.2 hlen' htrace'

/-- Counterexample to claim C3 as stated: with rpm = 1, two acquires at
monotonic clock readings 0, 0 and then 60, 60 (legal: the second call
needs no wait, and the clock may stand still) leave TWO timestamps in
the window, because the cleanup discards only timestamps STRICTLY older
than now - 60 and the timestamp at exactly 60 s of age is retained. -/
theorem rateLimiter_counterexample :
    chronologicalFrom 0 [((0 : ℚ), (0 : ℚ)), (60, 60)]
    ∧ (runAcquires 1 60 [] [((0 : ℚ), (0 : ℚ)), (60, 60)]).1 = [0, 60] := by
  constructor
  · norm_num [chronologicalFrom]
  · norm_num [runAcquires, acquire, getWaitTime, cleanupOldTimestamps,
      List.dropWhile]

/-- Claim C3 (amended): the wait returned by acquire is never negative,
for any rpm and clock readings. For rpm > 0 and any chronologically
consistent call sequence starting from an empty window, every timestamp
retained after the last acquire lies within the last 60 seconds
(inclusive at the boundary); and the window holds at most rpm
timestamps provided each call reads a post-wait clock strictly past the
first reading plus the returned wait. At the exact boundary (post-wait
reading equal to the expiry instant of the oldest timestamp) the
expiring timestamp is retained and the count can exceed rpm. -/
theorem rateLimiter_spec :
    (∀ (rpm : ℤ) (window n1 n2 : ℚ) (ts : List ℚ),
      0 ≤ (acquire rpm window n1 n2 ts).1)
    ∧ (∀ (rpm : ℤ) (t0 : ℚ) (calls : List (ℚ × ℚ)),
        0 < rpm → chronologicalFrom t0 calls →
        (∀ c, calls.getLast? = some c →
          ∀ x ∈ (runAcquires rpm 60 [] calls).1, c.2 - 60 ≤ x ∧ x ≤ c.2)
        ∧ ((∀ tr ∈ (runAcquires rpm 60 [] calls).2, tr.1 + tr.2.2 < tr.2.1) →
            ((runAcquires rpm 60 [] calls).1.length : ℤ) ≤ rpm)) := by
  constructor
  · exact acquire_wait_nonneg
  · intro rpm t0 calls hrpm hchron
    have h := runAcquires_invariant rpm hrpm calls [] t0 (by simp) (by simp) hchron
    exact ⟨h.1.2, fun htr => h.2 (by simp [hrpm.le]) htr⟩

/-- Witness for rateLimiter_spec: a two-call trace with strict clock
passage keeps the window at no more than one timestamp for rpm 1. -/
theorem rateLimiter_spec_witness :
    ((runAcquires 1 60 [] [((0 : ℚ), 1), (2, 63)]).1.length : ℤ) ≤ 1 := by
  apply (rateLimiter_spec.2 1 0 [((0 : ℚ), 1), (2, 63)] (by norm_num)
    (by norm_num [chronologicalFrom])).2
  norm_num [runAcquires, acquire, getWaitTime, cleanupOldTimestamps,
    List.dropWhile]

/-! ## Claim C8: hybrid search combination -/

theorem dictFind_dictSet (k k' : ChunkSource × Option ℕ) (r : MemorySearchResult) :
    ∀ d, dictFind (dictSet k r d) k' =
      if k' = k then some r else dictFind d k' := by
  intro d
  induction d with
  | nil =>
    by_cases h : k' = k
    · simp [dictSet, dictFind, List.find?, h]
    · have h2 : ¬ k = k' := fun hc => h hc.symm
      simp [dictSet, dictFind, List.find?, h, h2]
  | cons p rest ih =>
    obtain ⟨k0, r0⟩ := p
    rw [dictSet]
    by_cases h0 : k0 = k
    · rw [if_pos h0]
      by_cases h : k' = k
      · simp [dictFind, List.find?, h, show k0 = k' from h0.trans h.symm]
      · simp [dictFind, List.find?, h,
          show ¬ k0 = k' from fun hc => h (hc.symm.trans h0)]
    · rw [if_neg h0]
      by_cases h1 : k0 = k'
      · have hkk : ¬ k' = k := fun hc => h0 (h1.trans hc)
        simp [dictFind, List.find?, h1, hkk]
      · simp only [dictFind, List.find?_cons] at ih ⊢
        have hd : decide (k0 = k') = false := by simp [h1]
        rw [hd]
        simpa using ih

theorem dictFind_dictAddScore (k k' : ChunkSource × Option ℕ) (delta : ℚ) :
    ∀ d, dictFind (dictAddScore k delta d) k' =
      if k' = k then
        (dictFind d k').map fun r => { r with score := r.score + delta }
      else dictFind d k' := by
  intro d
  induction d with
  | nil =>
    by_cases h : k' = k <;> simp [dictAddScore, dictFind, List.find?, h]
  | cons p rest ih =>
    obtain ⟨k0, r0⟩ := p
    rw [dictAddScore]
    by_cases h0 : k0 = k
    · rw [if_pos h0]
      by_cases h : k' = k
      · simp [dictFind, List.find?, h, show k0 = k' from h0.trans h.symm]
      · simp [dictFind, List.find?, h,
          show ¬ k0 = k' from fun hc => h (hc.symm.trans h0)]
    · rw [if_neg h0]
      by_cases h1 : k0 = k'
      · have hkk : ¬ k' = k := fun hc => h0 (h1.trans hc)
        simp [dictFind, List.find?, h1, hkk]
      · simp only [dictFind, List.find?_cons] at ih ⊢
        have hd : decide (k0 = k') = false := by simp [h1]
        rw [hd]
        simpa using ih

theorem dictFind_append_single (k k' : ChunkSource × Option ℕ)
    (r : MemorySearchResult) :
    ∀ d, dictFind (d ++ [(k, r)]) k' =
      match dictFind d k' with
      | some x => some x
      | Option.none => if k' = k then some r else Option.none := by
  intro d
  induction d with
  | nil =>
    by_cases h : k' = k
    · simp [dictFind, List.find?, h]
    · have h2 : ¬ k = k' := fun hc => h hc.symm
      simp [dictFind, List.find?, h, h2]
  | cons p rest ih =>
    obtain ⟨k0, r0⟩ := p
    by_cases h1 : k0 = k'
    · simp [dictFind, List.find?, h1]
    · simp only [List.cons_append, dictFind, List.find?_cons] at ih ⊢
      have hd : decide (k0 = k') = false := by simp [h1]
      rw [hd]
      simpa using ih

theorem dictMem_isSome (k : ChunkSource × Option ℕ) :
    ∀ d, dictMem k d = (dictFind d k).isSome := by
  intro d
  induction d with
  | nil => simp [dictMem, dictFind, List.find?]
  | cons p rest ih =>
    obtain ⟨k0, r0⟩ := p
    by_cases h : k0 = k
    · simp [dictMem, dictFind, List.find?, h]
    · simp only [dictMem, List.any_cons, dictFind, List.find?_cons] at ih ⊢
      have hd : decide (k0 = k) = false := by simp [h]
      rw [hd]
      simpa [h] using ih

theorem dictFind_vecFold (vw : ℚ) :
    ∀ (v : List MemorySearchResult)
      (acc : List ((ChunkSource × Option ℕ) × MemorySearchResult))
      (k : ChunkSource × Option ℕ),
      (v.map resultKey).Nodup →
      dictFind (v.foldl
        (fun d r => dictSet (resultKey r) { r with score := r.score * vw } d) acc) k =
        (match v.find? (fun r => resultKey r = k) with
          | some r => some { r with score := r.score * vw }
          | Option.none => dictFind acc k) := by
  intro v
  induction v with
  | nil =>
    intro acc k _
    simp
  | cons r rest ih =>
    intro acc k hnd
    rw [List.map_cons] at hnd
    have hnd0 := List.nodup_cons.mp hnd
    rw [List.foldl_cons, ih _ k hnd0.2]
    by_cases hk : resultKey r = k
    · have hfind : rest.find? (fun r' => decide (resultKey r' = k)) = Option.none := by
        rw [List.find?_eq_none]
        intro x hx
        simp only [decide_eq_true_eq]
        intro hc
        exact hnd0.1 (by rw [hk, ← hc]; exact List.mem_map_of_mem _ hx)
      rw [hfind, dictFind_dictSet, if_pos hk.symm]
      simp [List.find?_cons, hk]
    · have hd : decide (resultKey r = k) = false := by simp [hk]
      simp only [List.find?_cons, hd]
      cases hrf : rest.find? fun r' => decide (resultKey r' = k) with
      | none =>
        rw [dictFind_dictSet, if_neg (fun hc => hk hc.symm)]
      | some r' => rfl

theorem dictFind_textFold (tw : ℚ) :
    ∀ (t : List MemorySearchResult)
      (d : List ((ChunkSource × Option ℕ) × MemorySearchResult))
      (k : ChunkSource × Option ℕ),
      (t.map resultKey).Nodup →
      dictFind (t.foldl
        (fun d r =>
          if dictMem (resultKey r) d then
            dictAddScore (resultKey r) (r.score * tw) d
          else d ++ [(resultKey r, { r with score := r.score * tw })]) d) k =
        (match t.find? (fun r => resultKey r = k) with
          | some r =>
            (match dictFind d k with
              | some x => some { x with score := x.score + r.score * tw }
              | Option.none => some { r with score := r.score * tw })
          | Option.none => dictFind d k) := by
  intro t
  induction t with
  | nil =>
    intro d k _
    simp
  | cons r rest ih =>
    intro d k hnd
    rw [List.map_cons] at hnd
    have hnd0 := List.nodup_cons.mp hnd
    rw [List.foldl_cons, ih _ k hnd0.2]
    by_cases hk : resultKey r = k
    · have hfind : rest.find? (fun r' => decide (resultKey r' = k)) = Option.none := by
        rw [List.find?_eq_none]
        intro x hx
        simp only [decide_eq_true_eq]
        intro hc
        exact hnd0.1 (by rw [hk, ← hc]; exact List.mem_map_of_mem _ hx)
      rw [hfind]
      simp only [List.find?_cons, show decide (resultKey r = k) = true by simp [hk]]
      by_cases hmem : dictMem (resultKey r) d = true
      · rw [if_pos hmem, dictFind_dictAddScore, if_pos hk.symm]
        have hsome : (dictFind d k).isSome = true := by
          rw [← dictMem_isSome, ← hk]
          exact hmem
        cases hdk : dictFind d k with
        | none => rw [hdk] at hsome; simp at hsome
        | some x => simp [hk]
      · rw [if_neg hmem, dictFind_append_single]
        have hnone : dictFind d k = Option.none := by
          cases hdk : dictFind d k with
          | none => rfl
          | some x =>
            exfalso
            apply hmem
            rw [dictMem_isSome, hk, hdk]
            rfl
        rw [hnone]
        simp [if_pos hk.symm, hk]
    · have hd2 : decide (resultKey r = k) = false := by simp [hk]
      simp only [List.find?_cons, hd2]
      have hstep : dictFind
          (if dictMem (resultKey r) d then
            dictAddScore (resultKey r) (r.score * tw) d
          else d ++ [(resultKey r, { r with score := r.score * tw })]) k =
          dictFind d k := by
        by_cases hmem : dictMem (resultKey r) d = true
        · rw [if_pos hmem, dictFind_dictAddScore, if_neg (fun hc => hk hc.symm)]
        · rw [if_neg hmem, dictFind_append_single]
          cases hdk : dictFind d k with
          | none =>
            exact if_neg fun hc => hk hc.symm
          | some x => rfl
      cases hrf : rest.find? fun r' => decide (resultKey r' = k) with
      | none => rw [hstep]
      | some r' => rw [hstep]

theorem scoreGt_asym (a b : MemorySearchResult) :
    scoreGt a b = true → scoreGt b a = false := by
  intro h
  simp only [scoreGt, decide_eq_true_eq] at h
  simp only [scoreGt, decide_eq_false_iff_not]
  linarith

theorem scoreGt_transNot (a b c : MemorySearchResult) :
    scoreGt a b = true → scoreGt c b = false → scoreGt c a = false := by
  intro h1 h2
  simp only [scoreGt, decide_eq_true_eq] at h1
  simp only [scoreGt, decide_eq_false_iff_not] at h2 ⊢
  intro hc
  exact h2 (by linarith)

theorem dictFindScore_eq_map (d : List ((ChunkSource × Option ℕ) × MemorySearchResult))
    (k : ChunkSource × Option ℕ) :
    dictFindScore d k = (dictFind d k).map fun r => r.score := by
  rw [dictFindScore, dictFind, Option.map_map]
  rfl

theorem hybridCombine_claimScore (vw tw : ℚ) (v t : List MemorySearchResult)
    (hndv : (v.map resultKey).Nodup) (hndt : (t.map resultKey).Nodup)
    (k : ChunkSource × Option ℕ) :
    dictFindScore (hybridCombine vw tw v t) k = hybridClaimScore vw tw v t k := by
  have hre : hybridCombine vw tw v t =
      t.foldl
        (fun d r =>
          if dictMem (resultKey r) d then
            dictAddScore (resultKey r) (r.score * tw) d
          else d ++ [(resultKey r, { r with score := r.score * tw })])
        (v.foldl
          (fun d r => dictSet (resultKey r) { r with score := r.score * vw } d) []) :=
    rfl
  rw [dictFindScore_eq_map, hre, dictFind_textFold tw t _ k hndt,
    dictFind_vecFold vw v [] k hndv, hybridClaimScore]
  cases hvf : v.find? (fun r => decide (resultKey r = k)) with
  | none =>
    cases htf : t.find? (fun r => decide (resultKey r = k)) with
    | none => rfl
    | some rt => rfl
  | some rv =>
    cases htf : t.find? (fun r => decide (resultKey r = k)) with
    | none => rfl
    | some rt => rfl

/-- Claim C8: hybrid_search returns the empty list when the config is
disabled; otherwise it is the combined dict values sorted by score
descending and truncated to max_results, where (for result sets with
distinct row keys, as produced by keyed search) the combined score of
each key "<source>:<source_id>" is the vector score scaled by
vector_weight plus the text score scaled by text_weight, each
contribution present exactly when the key occurs in that result set;
the output is score-sorted descending and at most max_results long. -/
theorem hybridSearch_spec (cfg : MemorySearchConfig)
    (v t : List MemorySearchResult) :
    (cfg.enabled = false → hybridSearch cfg v t = [])
    ∧ (cfg.enabled = true →
        hybridSearch cfg v t =
          (stableSortBy scoreGt
            ((hybridCombine (weightsGet cfg.hybridWeights "vector" (7 / 10))
              (weightsGet cfg.hybridWeights "text" (3 / 10)) v t).map Prod.snd)).take
            cfg.maxResults)
    ∧ ((v.map resultKey).Nodup → (t.map resultKey).Nodup →
        ∀ k, dictFindScore
            (hybridCombine (weightsGet cfg.hybridWeights "vector" (7 / 10))
              (weightsGet cfg.hybridWeights "text" (3 / 10)) v t) k =
          hybridClaimScore (weightsGet cfg.hybridWeights "vector" (7 / 10))
            (weightsGet cfg.hybridWeights "text" (3 / 10)) v t k)
    ∧ (hybridSearch cfg v t).length ≤ cfg.maxResults
    ∧ (hybridSearch cfg v t).Pairwise fun a b => b.score ≤ a.score := by
  refine ⟨?_, ?_, ?_, ?_, ?_⟩
  · intro h
    rw [hybridSearch, if_pos h]
  · intro h
    rw [hybridSearch, if_neg (by simp [h])]
  · intro hndv hndt k
    exact hybridCombine_claimScore _ _ v t hndv hndt k
  · by_cases h : cfg.enabled = false
    · rw [hybridSearch, if_pos h]
      simp
    · rw [hybridSearch, if_neg h]
      exact List.length_take_le _ _
  · by_cases h : cfg.enabled = false
    · rw [hybridSearch, if_pos h]
      exact List.Pairwise.nil
    · rw [hybridSearch, if_neg h]
      have hsorted := stableSortBy_pairwise scoreGt scoreGt_asym scoreGt_transNot
        ((hybridCombine (weightsGet cfg.hybridWeights "vector" (7 / 10))
          (weightsGet cfg.hybridWeights "text" (3 / 10)) v t).map Prod.snd)
      have htake := hsorted.sublist (List.take_sublist cfg.maxResults _)
      exact htake.imp fun hab => by
        simpa [scoreGt, not_lt] using hab

/-- Witness for hybridSearch_spec: one vector row and one text row with
the same key and score 1 combine, under the default 0.7 / 0.3 weights,
to the combined score 1. -/
theorem hybridSearch_spec_witness :
    dictFindScore
      (hybridCombine
        (weightsGet (MemorySearchConfig.mk true 6 (35 / 100)
          [("vector", 7 / 10), ("text", 3 / 10)]).hybridWeights "vector" (7 / 10))
        (weightsGet (MemorySearchConfig.mk true 6 (35 / 100)
          [("vector", 7 / 10), ("text", 3 / 10)]).hybridWeights "text" (3 / 10))
        [MemorySearchResult.mk "m" 1 .message (some 1) Option.none]
        [MemorySearchResult.mk "m" 1 .message (some 1) Option.none])
      (ChunkSource.message, some 1) = some 1 := by
  rw [(hybridSearch_spec
    (MemorySearchConfig.mk true 6 (35 / 100) [("vector", 7 / 10), ("text", 3 / 10)])
    [MemorySearchResult.mk "m" 1 .message (some 1) Option.none]
    [MemorySearchResult.mk "m" 1 .message (some 1) Option.none]).2.2.1
    (by simp) (by simp) (ChunkSource.message, some 1)]
  have hne : (decide (("vector" : String) = "text")) = false := by decide
  norm_num [hybridClaimScore, resultKey, pyOrId, List.find?, weightsGet, hne]

/-! ## Claim C9: text search -/

theorem if_isEmpty_filter {α : Type} (words : List String) (p : α → Bool)
    (l : List α) :
    (if words.isEmpty then l else l.filter p) =
      l.filter fun x => words.isEmpty || p x := by
  cases hw : words.isEmpty
  · simp [hw]
  · simp [hw]

theorem filterMap_threshold {α β : Type} (f : α → β) (p : β → Prop)
    [DecidablePred p] (l : List α) :
    (l.filterMap fun a => if p (f a) then some (f a) else Option.none) =
      (l.map f).filter fun b => decide (p b) := by
  induction l with
  | nil => rfl
  | cons a l ih =>
    by_cases h : p (f a) <;> simp [h, ih]

/-- Counterexample to claim C9 as stated: with the default config, the
query alpha beta and a single stored summary alpha gamma (which
contains the token alpha, so the claim makes it a candidate with score
one half, above min_score), text_search returns nothing: the source
filters summaries by containment of the WHOLE query string, not of any
token. -/
theorem textSearch_counterexample :
    textSearch
      (MemorySearchConfig.mk true 6 (35 / 100) [("vector", 7 / 10), ("text", 3 / 10)])
      (MemDb.mk [] [MemSummary.mk 1 1 1 "alpha gamma" 5]) "alpha beta"
      Option.none Option.none = []
    ∧ textSearchClaim
      (MemorySearchConfig.mk true 6 (35 / 100) [("vector", 7 / 10), ("text", 3 / 10)])
      (MemDb.mk [] [MemSummary.mk 1 1 1 "alpha gamma" 5]) "alpha beta"
      Option.none Option.none =
      [MemorySearchResult.mk "alpha gamma" (1 / 2) .summary Option.none (some 1)] := by
  constructor
  · have hsub : hasSubList (charsLower ['a', 'l', 'p', 'h', 'a', ' ', 'b', 'e', 't', 'a'])
        (charsLower ['a', 'l', 'p', 'h', 'a', ' ', 'g', 'a', 'm', 'm', 'a']) = false := by
      decide
    simp [textSearch, restrictRows, hsub, stableSortBy, List.filter_cons]
  · have hw : pySplitChars (charsLower ['a', 'l', 'p', 'h', 'a', ' ', 'b', 'e', 't', 'a']) =
        ["alpha", "beta"] := by decide
    have hany : (["alpha", "beta"].any fun w =>
        hasSubList w.toList
          (charsLower ['a', 'l', 'p', 'h', 'a', ' ', 'g', 'a', 'm', 'm', 'a'])) = true := by
      decide
    have hmatch : tokenMatches ["alpha", "beta"] "alpha gamma" = 1 := by decide
    simp only [textSearchClaim, restrictRows, hw]
    norm_num [summaryResult, tokenScore, hmatch, stableSortBy, insertBefore,
      List.filter, hany, hw]

/-- Claim C9 (amended): text_search returns, from the 2 times
max_results most recent messages containing any query token (all
messages when the query has no tokens) and the first max_results
summaries whose content contains the WHOLE query as a case-insensitive
substring, those candidates whose token-overlap score (matching tokens
over total tokens, 0 for a tokenless query) reaches min_score, sorted
by score descending (stable, messages before summaries on ties) and
truncated to max_results. -/
theorem textSearch_eq_amendedSpec (cfg : MemorySearchConfig) (db : MemDb)
    (query : String) (session : Option ℕ) (agentId : Option ℕ) :
    textSearch cfg db query session agentId =
      textSearchAmendedSpec cfg db query session agentId := by
  simp only [textSearch, textSearchAmendedSpec]
  rw [if_isEmpty_filter, filterMap_threshold (messageResult
    (pySplitChars (charsLower query.toList))) (fun r => cfg.minScore ≤ r.score),
    filterMap_threshold (summaryResult
    (pySplitChars (charsLower query.toList))) (fun r => cfg.minScore ≤ r.score),
    List.filter_append]

/-- Witness for runSelectTools_spec: a two-tool registry filtered by a
caller-supplied single-name list passes exactly that tool. -/
theorem runSelectTools_spec_witness :
    runSelectTools true ["calculator", "get_datetime"] "anthropic"
      (some ["calculator"]) = some [FormattedTool.mk .anthropicFmt "calculator"] := by
  have h := (runSelectTools_spec (Agent.mk "full" [] []) ["calculator", "get_datetime"]
    "anthropic" Option.none ["calculator"]).2.2.2.1 (by decide)
  rw [h]
  decide
